import Mathlib

/-!
Shallow embedding of the `stimulus-autocomplete` widget
(`src/src/autocomplete.js` and the cache-enabled variant
`src/unnamed/part_000`).

Strings are modelled as `List Char`; `String.prototype.toLowerCase()` is
modelled per character by `Char.toLower` (this preserves length, which the
JavaScript method does for the inputs this widget handles).  JavaScript
object key/value maps (`this.cache`) are modelled as association lists in
key insertion order, which is the enumeration order `Object.keys` uses for
the (non array-index-like) string keys produced by queries.
-/

/-- Per-character lowercasing, the model of `s.toLowerCase()`. -/
def lowerL (s : List Char) : List Char := s.map Char.toLower

/-- Model of `hay.indexOf(needle)` on strings: the first index at which
`needle` occurs as a contiguous sublist of `hay`, or `none`.  As in
JavaScript, the empty needle is found at index 0. -/
def indexOfSub (hay needle : List Char) : Option Nat :=
  if hay.take needle.length = needle then some 0
  else
    match hay with
    | [] => none
    | _ :: t => (indexOfSub t needle).map (· + 1)

/-- Model of `l.startsWith(k)` on strings. -/
def listStartsWith (l k : List Char) : Bool := l.take k.length == k

/-- The JSON payload shape the remote endpoint returns
(`items`, `exact_items`, `field`, `raw_term`, `term`, `partial`).
The source's field `partial` is a Lean keyword, hence `partialFlag`. -/
structure JsonResponse where
  items : List (List Char)
  exact_items : List (List Char)
  field : List Char
  raw_term : List Char
  term : List Char
  partialFlag : Bool
  deriving DecidableEq, Repr

/-- `getUniqueItemList(json_response)` from both source files:
`exact_items.concat(items.filter(item => !exact_items.includes(item)))`. -/
def getUniqueItemList (j : JsonResponse) : List (List Char) :=
  j.exact_items ++ j.items.filter (fun item => !(j.exact_items.contains item))

namespace AutocompleteCache

/-- The cache map of `AutocompleteCache` (`src/unnamed/part_000`):
an association list from lowercased query keys to payloads, kept in key
insertion order (the `Object.keys` enumeration order for these keys). -/
abbrev Cache := List (List Char × JsonResponse)

/-- `findInCache(query)` from `src/unnamed/part_000` lines 49-61:
lowercase the query; an exact key hit wins; otherwise scan the keys in
order and return the first entry with `!entry.partial` whose key the
lowercased query `startsWith`; otherwise `null`. -/
def findInCache (cache : Cache) (query : List Char) : Option JsonResponse :=
  let q := lowerL query
  match cache.find? (fun p => p.1 == q) with
  | some p => some p.2
  | none =>
    (cache.find? (fun p => !p.2.partialFlag && listStartsWith q p.1)).map (·.2)

/-- `addToCache(query, data)`: store under the lowercased key.  A JS object
keeps an existing key at its original insertion position, so an existing
key is overwritten in place and a new key is appended. -/
def addToCache (cache : Cache) (query : List Char) (data : JsonResponse) : Cache :=
  let k := lowerL query
  if cache.any (fun p => p.1 == k) then
    cache.map (fun p => if p.1 == k then (p.1, data) else p)
  else
    cache ++ [(k, data)]

/-- Outcome of `AutocompleteCache.fetch(query)`: either it resolves from
the cache (no network request), or it falls through to `performFetch`. -/
inductive FetchSource where
  | cached (e : JsonResponse)
  | network
  deriving DecidableEq, Repr

/-- `fetch(query)` from `src/unnamed/part_000` lines 71-77: resolve with
`findInCache(query)` when that is non-null, else perform a network fetch. -/
def fetch (cache : Cache) (query : List Char) : FetchSource :=
  match findInCache cache query with
  | some e => FetchSource.cached e
  | none => FetchSource.network

end AutocompleteCache

/-! ## DOM model for the results list -/

/-- The children of a rendered `<li>`: either the three-part highlighted
structure `prefix text, <em>match</em>, suffix text` built by
`updateResults`, or a plain text node (the "no results" placeholder). -/
inductive LiContent where
  | highlighted (pre mid suf : List Char)
  | text (t : List Char)
  deriving DecidableEq, Repr

/-- A `<li>` child of the results container.  `elemId` is the DOM node's
identity (fresh per `document.createElement`); `value` is
`dataset.autocompleteValue`; `isOption` records `role="option"`;
`ariaDisabled` records presence of the `aria-disabled` attribute
(set via `li.ariaDisabled = true` for the placeholder); `ariaSelected`
records `aria-selected="true"`; `classes` is the `classList`. -/
structure LiElem where
  elemId : Nat
  value : List Char
  isOption : Bool
  ariaDisabled : Bool
  ariaSelected : Bool
  classes : List String
  children : LiContent
  deriving DecidableEq, Repr

/-- Widget state relevant to the claims: the results container's children
in document order, the controller's `item_count` field, the list
visibility (`resultsShown`, i.e. `!resultsTarget.hidden`), and the
fresh-identity counter for created elements. -/
structure WidgetState where
  lis : List LiElem
  item_count : Nat
  resultsShown : Bool
  nextId : Nat
  deriving DecidableEq, Repr

/-- The empty, closed widget (results container with no children). -/
def emptyState : WidgetState :=
  { lis := [], item_count := 0, resultsShown := false, nextId := 0 }

/-- The `options` getter:
`resultsTarget.querySelectorAll("[role='option']:not([aria-disabled])")`. -/
def options (s : WidgetState) : List LiElem :=
  s.lis.filter (fun li => li.isOption && !li.ariaDisabled)

/-- The `selectedOption` getter:
`resultsTarget.querySelector("[aria-selected='true']")` (first match in
document order). -/
def selectedOption (s : WidgetState) : Option LiElem :=
  s.lis.find? (fun li => li.ariaSelected)

/-- `document.createTextNode` contents of the placeholder:
the template literal rendering of query `q`. -/
def noResultsText (q : List Char) : List Char :=
  ("No results found for \"".data) ++ q ++ ("\"".data)

/-- The placeholder test used by `hideSorryMessage`
(`querySelector("li.disabled.sorry-message")`). -/
def isSorryLi (li : LiElem) : Bool :=
  li.classes.contains "disabled" && li.classes.contains "sorry-message"

/-! ## `updateResults` (identical in both source files except for the
placeholder helpers, which are modelled from `src/src/autocomplete.js`,
the file the claims cite) -/

/-- The per-item rendering decision and content of the `updateResults`
loop body: `pos = item.toLowerCase().indexOf(lower_query)`; when
`pos >= 0` the children are `item.slice(0, pos)`,
`<em>item.slice(pos, pos + query.length)</em>`,
`item.slice(pos + query.length)`. -/
def renderedContent (query item : List Char) : Option LiContent :=
  (indexOfSub (lowerL item) (lowerL query)).map (fun pos =>
    LiContent.highlighted (item.take pos) ((item.drop pos).take query.length)
      (item.drop (pos + query.length)))

/-- Whether `updateResults` renders `item` for `query`
(the `pos >= 0` test). -/
def renders (query item : List Char) : Bool :=
  (renderedContent query item).isSome

/-- Replace the children of the element with identity `a`
(the `while (firstChild) removeChild` / `appendChild` sequence). -/
def setChildren (lis : List LiElem) (a : Nat) (c : LiContent) : List LiElem :=
  lis.map (fun li => if li.elemId = a then { li with children := c } else li)

/-- `resultsTarget.insertBefore(li, anchor.nextSibling)`; with no anchor,
`insertBefore(li, resultsTarget.firstChild)` puts `li` first. -/
def insertAfterId : List LiElem → Nat → LiElem → List LiElem
  | [], _, li => [li]
  | x :: xs, a, li => if x.elemId = a then x :: li :: xs else x :: insertAfterId xs a li

/-- Insertion step of `updateResults`: after `last_li` when one exists,
else at the front of the container. -/
def insertAfter (lis : List LiElem) (anchor : Option Nat) (li : LiElem) : List LiElem :=
  match anchor with
  | none => li :: lis
  | some a => insertAfterId lis a li

/-- `resultsTarget.removeChild(el)` for the element with identity `a`. -/
def removeById (lis : List LiElem) (a : Nat) : List LiElem :=
  lis.filter (fun li => !(li.elemId == a))

/-- Loop state of `updateResults`: the live container children, `last_li`
(by identity), the fresh-identity counter, `item_count` and
`shown_items`. -/
structure UpdAcc where
  lis : List LiElem
  last_li : Option Nat
  nextId : Nat
  count : Nat
  shown : List (List Char)
  deriving DecidableEq, Repr

/-- One iteration of the `for (var item of items)` loop of
`updateResults`.  `snapshot` is the `existing_lis` array captured before
the loop, reduced to the (identity, value) data the loop reads from it
(`existing_lis.find(li => li.dataset.autocompleteValue === item)`). -/
def processItem (query : List Char) (snapshot : List (Nat × List Char))
    (acc : UpdAcc) (item : List Char) : UpdAcc :=
  match renderedContent query item with
  | none => acc
  | some c =>
    match snapshot.find? (fun p => p.2 == item) with
    | some p =>
      { acc with
        lis := setChildren acc.lis p.1 c
        last_li := some p.1
        count := acc.count + 1
        shown := acc.shown ++ [item] }
    | none =>
      let li : LiElem :=
        { elemId := acc.nextId, value := item, isOption := true,
          ariaDisabled := false, ariaSelected := false,
          classes := ["list-group-item"], children := c }
      { lis := insertAfter acc.lis acc.last_li li
        last_li := some acc.nextId
        nextId := acc.nextId + 1
        count := acc.count + 1
        shown := acc.shown ++ [item] }

/-- The placeholder `<li>` built by `showSorryMessage`: classes
`list-group-item disabled sorry-message`, `ariaDisabled = true`, no
`role="option"`, holding the literal text. -/
def sorryLiOf (n : Nat) (query : List Char) : LiElem :=
  { elemId := n, value := [], isOption := false,
    ariaDisabled := true, ariaSelected := false,
    classes := ["list-group-item", "disabled", "sorry-message"],
    children := LiContent.text (noResultsText query) }

/-- `showSorryMessage(query)` from `src/src/autocomplete.js` lines
345-352: append a disabled `li.list-group-item.disabled.sorry-message`
holding the literal text (this variant does not remove a pre-existing
placeholder first; the `setHeight` styling call is not modelled). -/
def showSorryMessage (s : WidgetState) (query : List Char) : WidgetState :=
  { s with lis := s.lis ++ [sorryLiOf s.nextId query], nextId := s.nextId + 1 }

/-- `hideSorryMessage()` from `src/src/autocomplete.js` lines 354-359:
remove the first `li.disabled.sorry-message`, if any. -/
def hideSorryMessage (s : WidgetState) : WidgetState :=
  match s.lis.find? isSorryLi with
  | some li => { s with lis := removeById s.lis li.elemId }
  | none => s

/-- `updateResults(items, query)`: run the merge loop over `items`, then
remove every `existing_lis` member whose value is not in `shown_items`,
then show or hide the placeholder according to `item_count`. -/
def updateResults (s : WidgetState) (items : List (List Char)) (query : List Char) :
    WidgetState :=
  let snapshot := (options s).map (fun li => (li.elemId, li.value))
  let acc0 : UpdAcc :=
    { lis := s.lis, last_li := none, nextId := s.nextId, count := 0, shown := [] }
  let acc := items.foldl (processItem query snapshot) acc0
  let lis1 := acc.lis.filter (fun li =>
    !((snapshot.any (fun p => p.1 == li.elemId)) && !(acc.shown.contains li.value)))
  let s1 : WidgetState :=
    { s with lis := lis1, nextId := acc.nextId, item_count := acc.count }
  if acc.count = 0 then showSorryMessage s1 query else hideSorryMessage s1

/-! ## `replaceResults`, open/close, selection, fetch lifecycle -/

/-- JavaScript truthiness of the value returned by the `options` getter:
`Array.from(...)` is an object, and objects are truthy regardless of
emptiness, so `!!this.options` is always `true`. -/
def jsArrayTruthy (_opts : List LiElem) : Bool := true

/-- `open()`: a no-op when already shown, else set `resultsShown = true`
(the `aria-expanded` attribute and `toggle` event are not modelled). -/
def openResults (s : WidgetState) : WidgetState :=
  if s.resultsShown then s else { s with resultsShown := true }

/-- `close()`: a no-op when already hidden, else set
`resultsShown = false` (the `aria-activedescendant` removal,
`aria-expanded` attribute and `toggle` event are not modelled). -/
def closeResults (s : WidgetState) : WidgetState :=
  if !s.resultsShown then s else { s with resultsShown := false }

/-- `identifyOptions()` assigns DOM `id` attribute strings to options
lacking one; element identity is already carried by `elemId` in this
model, so the state is unchanged. -/
def identifyOptions (s : WidgetState) : WidgetState := s

/-- `replaceResults(json_response, query)` from `src/src/autocomplete.js`
lines 264-275: merge and render, then branch on `!!this.options` to open
or close. -/
def replaceResults (s : WidgetState) (json : JsonResponse) (query : List Char) :
    WidgetState :=
  let s1 := updateResults s (getUniqueItemList json) query
  let s2 := identifyOptions s1
  if jsArrayTruthy (options s2) then openResults s2 else closeResults s2

/-- The configured selected classes, defaulting to `["active"]`
(`selectedClassesOrDefault` with no `selectedClass` configured). -/
def selectedClassesOrDefault : List String := ["active"]

/-- JavaScript array indexing `options[i]` with a possibly negative
index: out-of-range and negative indices yield `undefined`. -/
def jsIndex (l : List LiElem) (i : Int) : Option LiElem :=
  if 0 ≤ i then l.get? i.toNat else none

/-- `options.indexOf(this.selectedOption)` in `sibling`: `-1` when
nothing is selected (or the selected element is not among the options),
else the selected element's position (by identity). -/
def siblingIndex (s : WidgetState) : Int :=
  match selectedOption s with
  | none => -1
  | some sel =>
    match (options s).findIdx? (fun li => li.elemId == sel.elemId) with
    | some i => (i : Int)
    | none => -1

/-- `sibling(next)` from `src/src/autocomplete.js` lines 57-64:
`index = options.indexOf(selected)` (`-1` when nothing is selected),
`sibling = next ? options[index+1] : options[index-1]`,
`def = next ? options[0] : options[options.length-1]`,
`return sibling || def`. -/
def sibling (s : WidgetState) (next : Bool) : Option LiElem :=
  let opts := options s
  let sib := if next then jsIndex opts (siblingIndex s + 1)
             else jsIndex opts (siblingIndex s - 1)
  let d := if next then opts.head? else opts.getLast?
  match sib with
  | some x => some x
  | none => d

/-- Unfolding equation for `sibling`. -/
theorem sibling_eq (s : WidgetState) (next : Bool) :
    sibling s next =
      match (if next then jsIndex (options s) (siblingIndex s + 1)
             else jsIndex (options s) (siblingIndex s - 1)) with
      | some x => some x
      | none => if next then (options s).head? else (options s).getLast? := rfl

/-- `classList.add(...)`: append the classes not already present. -/
def addClasses (cs add : List String) : List String :=
  cs ++ add.filter (fun c => !(cs.contains c))

/-- `classList.remove(...)`: remove every occurrence of the classes. -/
def removeClasses (cs rem : List String) : List String :=
  cs.filter (fun c => !(rem.contains c))

/-- The deselection half of `select(target)`: clear `aria-selected` and
the selected classes on the previously selected option (found by
`this.selectedOption`). -/
def unselectPrevious (s : WidgetState) : WidgetState :=
  match selectedOption s with
  | none => s
  | some prev =>
    { s with lis := s.lis.map (fun li =>
        if li.elemId = prev.elemId then
          { li with ariaSelected := false,
                    classes := removeClasses li.classes selectedClassesOrDefault }
        else li) }

/-- `select(target)` from `src/src/autocomplete.js` lines 66-79: clear the
previous selection, then, when `item_count > 0` and the target does not
carry the `disabled` class, mark the target selected and add the selected
classes (`aria-activedescendant` and `scrollIntoView` are not modelled). -/
def select (s : WidgetState) (target : LiElem) : WidgetState :=
  let s1 := unselectPrevious s
  if s.item_count > 0 && !(target.classes.contains "disabled") then
    { s1 with lis := s1.lis.map (fun li =>
        if li.elemId = target.elemId then
          { li with ariaSelected := true,
                    classes := addClasses li.classes selectedClassesOrDefault }
        else li) }
  else s1

/-- `onArrowDownKeydown`: `const item = this.sibling(true); if (item)
this.select(item)`. -/
def onArrowDownKeydown (s : WidgetState) : WidgetState :=
  match sibling s true with
  | some item => select s item
  | none => s

/-- `onArrowUpKeydown`: `const item = this.sibling(false); if (item)
this.select(item)`. -/
def onArrowUpKeydown (s : WidgetState) : WidgetState :=
  match sibling s false with
  | some item => select s item
  | none => s

/-! ## Fetch lifecycle events (`fetchResults` / `doFetch`) -/

/-- The custom events the controller dispatches on `this.element` during
a fetch cycle (the `toggle` events fired inside `open`/`close` are kept
out of this trace). -/
inductive WidgetEvent where
  | loadstart
  | load
  | loadend
  | error
  deriving DecidableEq, Repr

/-- What the network did for one request: a response with its `ok` flag
(`status` in the 200-299 range), HTTP status and JSON body, or a
transport-level failure (rejected `fetch`). -/
inductive NetOutcome where
  | response (ok : Bool) (status : Nat) (body : JsonResponse)
  | transportError
  deriving DecidableEq, Repr

/-- The exceptions a fetch cycle can end in: the
`new Error("Server responded with status ...")` thrown on a non-2xx
response, or the transport rejection. -/
inductive FetchError where
  | httpStatus (status : Nat)
  | transport
  deriving DecidableEq, Repr

/-- `doFetch(url)` from `src/src/autocomplete.js` lines 224-242, as a
function of the network outcome: throw on transport failure, throw an
`Error` when `!response.ok`, else resolve with the JSON body. -/
def doFetch : NetOutcome → Except FetchError JsonResponse
  | NetOutcome.response ok status body =>
    if ok then Except.ok body else Except.error (FetchError.httpStatus status)
  | NetOutcome.transportError => Except.error FetchError.transport

/-- `fetchResults(query)` from `src/src/autocomplete.js` lines 198-213:
a no-op without a configured URL; otherwise dispatch `loadstart`, await
`doFetch`; on success apply `replaceResults` then dispatch `load` and
`loadend`; on failure dispatch `error` and `loadend` and re-throw.
Returns the final widget state, the event trace on `this.element`, and
the promise outcome seen by the caller. -/
def fetchResults (s : WidgetState) (hasUrl : Bool) (query : List Char)
    (net : NetOutcome) :
    WidgetState × List WidgetEvent × Except FetchError Unit :=
  if !hasUrl then (s, [], Except.ok ()) else
  match doFetch net with
  | Except.ok j =>
    (replaceResults s j query,
     [WidgetEvent.loadstart, WidgetEvent.load, WidgetEvent.loadend],
     Except.ok ())
  | Except.error e =>
    (s, [WidgetEvent.loadstart, WidgetEvent.error, WidgetEvent.loadend],
     Except.error e)

/-! ## Interleaving model of the request lifecycle

Each `doFetch` call (`src/src/autocomplete.js` lines 224-242) creates a
request that suspends twice: at `await fetch(url, {signal})` (resumed when
the response headers arrive) and at `await response.json()` (resumed when
the body has arrived and parsed).  Crucially the code runs
`this.abortController = null` at the first resumption, before the body
await, so `abortLastRequest()` in a later `doFetch` can only abort a
request still waiting for headers.  `src/unnamed/part_000`'s
`AutocompleteCache.performFetch` (lines 79-96) instead clears
`this.abortController` only in the final `.then`, after the JSON body has
been parsed, so a new request aborts the previous one during its whole
lifetime. -/

/-- Where a request currently is: waiting for headers, waiting for its
body/JSON, aborted by `abortController.abort()`, or completed with its
payload applied. -/
inductive ReqPhase where
  | headersWait
  | bodyWait
  | aborted
  | done
  deriving DecidableEq, Repr

/-- State shared between overlapping requests: the widget's
`abortController` slot (holding the id of the request it can cancel), a
fresh request-id counter, each request's phase, and the list of responses
that reached `replaceResults`, each recorded as (request id, value of the
request counter at application time). -/
structure NetTraceState where
  controller : Option Nat
  nextReq : Nat
  phases : List (Nat × ReqPhase)
  applied : List (Nat × Nat)
  deriving DecidableEq, Repr

/-- The empty lifecycle state (no request started). -/
def initNetState : NetTraceState :=
  { controller := none, nextReq := 0, phases := [], applied := [] }

/-- Scheduler events: a new `doFetch`/`performFetch` call starts, request
`j`'s response headers arrive, or request `j`'s body arrives and parses. -/
inductive NetStep where
  | start
  | headers (j : Nat)
  | body (j : Nat)
  deriving DecidableEq, Repr

/-- Phase lookup for request `j`. -/
def getPhase (ps : List (Nat × ReqPhase)) (j : Nat) : Option ReqPhase :=
  (ps.find? (fun p => p.1 == j)).map (·.2)

/-- Overwrite request `j`'s phase. -/
def setPhase (ps : List (Nat × ReqPhase)) (j : Nat) (ph : ReqPhase) :
    List (Nat × ReqPhase) :=
  ps.map (fun p => if p.1 == j then (p.1, ph) else p)

/-- One scheduler step of `src/src/autocomplete.js`'s `doFetch`:
- `start`: `abortLastRequest()` aborts the controller-held request, a new
  `AbortController` is installed for a fresh request id;
- `headers j`: the `await fetch` of a non-aborted request resumes and the
  code immediately runs `this.abortController = null`;
- `body j`: the `await response.json()` of a request that reached its
  body wait resumes, and `fetchResults` applies the payload via
  `replaceResults` (there is no staleness check before applying). -/
def netStep (st : NetTraceState) : NetStep → NetTraceState
  | NetStep.start =>
    let st1 :=
      match st.controller with
      | some i => { st with phases := setPhase st.phases i ReqPhase.aborted,
                            controller := none }
      | none => st
    { st1 with controller := some st.nextReq
               nextReq := st.nextReq + 1
               phases := st1.phases ++ [(st.nextReq, ReqPhase.headersWait)] }
  | NetStep.headers j =>
    if getPhase st.phases j = some ReqPhase.headersWait then
      { st with phases := setPhase st.phases j ReqPhase.bodyWait,
                controller := none }
    else st
  | NetStep.body j =>
    if getPhase st.phases j = some ReqPhase.bodyWait then
      { st with phases := setPhase st.phases j ReqPhase.done,
                applied := st.applied ++ [(j, st.nextReq)] }
    else st

/-- Run a schedule against `src/src/autocomplete.js`'s `doFetch`. -/
def runTrace (steps : List NetStep) : NetTraceState :=
  steps.foldl netStep initNetState

/-- One scheduler step of `src/unnamed/part_000`'s
`AutocompleteCache.performFetch`: identical, except that
`this.abortController = null` runs only in the `.then` that receives the
parsed body, so the headers step leaves the controller in place and an
in-flight body wait is still abortable by a new `start`. -/
def netStepPF (st : NetTraceState) : NetStep → NetTraceState
  | NetStep.start =>
    let st1 :=
      match st.controller with
      | some i => { st with phases := setPhase st.phases i ReqPhase.aborted,
                            controller := none }
      | none => st
    { st1 with controller := some st.nextReq
               nextReq := st.nextReq + 1
               phases := st1.phases ++ [(st.nextReq, ReqPhase.headersWait)] }
  | NetStep.headers j =>
    if getPhase st.phases j = some ReqPhase.headersWait then
      { st with phases := setPhase st.phases j ReqPhase.bodyWait }
    else st
  | NetStep.body j =>
    if getPhase st.phases j = some ReqPhase.bodyWait then
      { st with phases := setPhase st.phases j ReqPhase.done,
                controller := none,
                applied := st.applied ++ [(j, st.nextReq)] }
    else st

/-- Run a schedule against `performFetch` of `src/unnamed/part_000`. -/
def runTracePF (steps : List NetStep) : NetTraceState :=
  steps.foldl netStepPF initNetState

/-- The schedule exhibiting the stale-response race in
`src/src/autocomplete.js`: request 0's headers arrive, request 1 starts
and fully completes, then request 0's body arrives. -/
def staleSchedule : List NetStep :=
  [NetStep.start, NetStep.headers 0, NetStep.start, NetStep.headers 1,
   NetStep.body 1, NetStep.body 0]

/-! ## Generic lemmas -/

/-- `indexOfSub` computes a genuine first occurrence: the needle fits at
the returned index, matches there, and matches at no earlier index. -/
theorem indexOfSub_some {hay needle : List Char} {pos : Nat}
    (h : indexOfSub hay needle = some pos) :
    pos + needle.length ≤ hay.length ∧
    (hay.drop pos).take needle.length = needle ∧
    ∀ i, i < pos → (hay.drop i).take needle.length ≠ needle := by
  induction hay generalizing pos with
  | nil =>
    rw [indexOfSub] at h
    by_cases hg : List.take needle.length ([] : List Char) = needle
    · rw [if_pos hg] at h
      cases h
      simp only [List.take_nil] at hg
      subst hg
      simp
    · rw [if_neg hg] at h
      exact Option.noConfusion h
  | cons x t ih =>
    rw [indexOfSub] at h
    by_cases hg : List.take needle.length (x :: t) = needle
    · rw [if_pos hg] at h
      cases h
      refine ⟨?_, by simpa using hg, by omega⟩
      have hlen := congrArg List.length hg
      simp only [List.length_take] at hlen
      have hle : needle.length ≤ (x :: t).length := min_eq_left_iff.mp hlen
      omega
    · rw [if_neg hg] at h
      obtain ⟨p, hp, hpos⟩ := Option.map_eq_some'.mp h
      obtain ⟨h1, h2, h3⟩ := ih hp
      subst hpos
      simp only [List.length_cons] at h1 ⊢
      refine ⟨by omega, by simpa using h2, ?_⟩
      intro i hi
      cases i with
      | zero => simpa using hg
      | succ i' => simpa using h3 i' (by omega)

/-- In a list whose image under `f` has no duplicates, two members with
the same image are the same member. -/
theorem nodup_field_eq {α β : Type} (f : α → β) {l : List α}
    (h : (l.map f).Nodup) :
    ∀ a ∈ l, ∀ b ∈ l, f a = f b → a = b := by
  induction l with
  | nil => intro a ha; cases ha
  | cons x t ih =>
    simp only [List.map_cons, List.nodup_cons] at h
    intro a ha b hb hf
    rcases List.mem_cons.mp ha with rfl | ha' <;>
      rcases List.mem_cons.mp hb with rfl | hb'
    · rfl
    · exact absurd (hf ▸ List.mem_map_of_mem f hb') h.1
    · exact absurd (hf ▸ List.mem_map_of_mem f ha') h.1
    · exact ih h.2 a ha' b hb' hf

/-- A list with at most one element satisfying `p` cannot hold two
different such elements. -/
theorem countP_le_one_eq {α : Type} {p : α → Bool} {l : List α}
    (h : l.countP p ≤ 1) :
    ∀ a ∈ l, p a = true → ∀ b ∈ l, p b = true → a = b := by
  induction l with
  | nil => intro a ha; cases ha
  | cons x t ih =>
    rw [List.countP_cons] at h
    intro a ha hpa b hb hpb
    rcases List.mem_cons.mp ha with rfl | ha' <;>
      rcases List.mem_cons.mp hb with rfl | hb'
    · rfl
    · rw [if_pos hpa] at h
      have ht : t.countP p = 0 := by omega
      exact absurd hpb ((List.countP_eq_zero.mp ht) b hb')
    · rw [if_pos hpb] at h
      have ht : t.countP p = 0 := by omega
      exact absurd hpa ((List.countP_eq_zero.mp ht) a ha')
    · exact ih (le_trans (Nat.le_add_right _ _) h) a ha' hpa b hb' hpb

/-- Membership through `insertAfterId`. -/
theorem mem_insertAfterId {lis : List LiElem} {a : Nat} {li x : LiElem} :
    x ∈ insertAfterId lis a li ↔ x ∈ lis ∨ x = li := by
  induction lis with
  | nil => simp [insertAfterId]
  | cons y t ih =>
    rw [insertAfterId]
    by_cases hy : y.elemId = a
    · rw [if_pos hy]
      simp only [List.mem_cons]
      tauto
    · rw [if_neg hy]
      simp only [List.mem_cons, ih]
      tauto

/-- Membership through `insertAfter`. -/
theorem mem_insertAfter {lis : List LiElem} {anchor : Option Nat} {li x : LiElem} :
    x ∈ insertAfter lis anchor li ↔ x ∈ lis ∨ x = li := by
  cases anchor with
  | none => simp [insertAfter]; tauto
  | some a => simpa [insertAfter] using mem_insertAfterId

/-- `setChildren` is the identity when the targeted element already holds
the given children. -/
theorem setChildren_id {lis : List LiElem} {a : Nat} {c : LiContent}
    (h : ∀ li ∈ lis, li.elemId = a → li.children = c) :
    setChildren lis a c = lis := by
  unfold setChildren
  induction lis with
  | nil => rfl
  | cons y t ih =>
    simp only [List.map_cons]
    have hy : (if y.elemId = a then { y with children := c } else y) = y := by
      by_cases hid : y.elemId = a
      · rw [if_pos hid, ← h y (List.mem_cons_self y t) hid]
      · rw [if_neg hid]
    rw [hy, ih (fun li hli hid => h li (List.mem_cons_of_mem y hli) hid)]

/-- A predicate insensitive to `children` is stable under `setChildren`. -/
theorem countP_setChildren (p : LiElem → Bool)
    (hp : ∀ (li : LiElem) (c : LiContent), p { li with children := c } = p li)
    (lis : List LiElem) (a : Nat) (c : LiContent) :
    (setChildren lis a c).countP p = lis.countP p := by
  unfold setChildren
  rw [List.countP_map]
  refine List.countP_congr ?_
  intro li _
  by_cases hid : li.elemId = a
  · simp only [Function.comp_apply, if_pos hid, hp]
  · simp only [Function.comp_apply, if_neg hid]

/-- Count through `insertAfterId`: the inserted element contributes its
own predicate value. -/
theorem countP_insertAfterId (p : LiElem → Bool) (lis : List LiElem)
    (a : Nat) (li : LiElem) :
    (insertAfterId lis a li).countP p =
      lis.countP p + (if p li then 1 else 0) := by
  induction lis with
  | nil => simp [insertAfterId, List.countP_cons]
  | cons y t ih =>
    rw [insertAfterId]
    by_cases hy : y.elemId = a
    · rw [if_pos hy]
      simp only [List.countP_cons]
      omega
    · rw [if_neg hy]
      simp only [List.countP_cons, ih]
      omega

/-- Count through `insertAfter`. -/
theorem countP_insertAfter (p : LiElem → Bool) (lis : List LiElem)
    (anchor : Option Nat) (li : LiElem) :
    (insertAfter lis anchor li).countP p =
      lis.countP p + (if p li then 1 else 0) := by
  cases anchor with
  | none => simp [insertAfter, List.countP_cons, Nat.add_comm]
  | some a => simpa [insertAfter] using countP_insertAfterId p lis a li

/-! ## Facts about the `updateResults` loop -/

/-- A non-matching item leaves the loop state untouched. -/
theorem processItem_none {query it : List Char} (snap : List (Nat × List Char))
    (acc : UpdAcc) (h : renders query it = false) :
    processItem query snap acc it = acc := by
  unfold processItem
  unfold renders at h
  cases hrc : renderedContent query it with
  | none => rfl
  | some c => rw [hrc] at h; simp at h

/-- Each loop iteration appends the item to `shown_items` exactly when it
matches. -/
theorem processItem_shown (query it : List Char) (snap : List (Nat × List Char))
    (acc : UpdAcc) :
    (processItem query snap acc it).shown =
      acc.shown ++ (if renders query it then [it] else []) := by
  unfold processItem renders
  cases hrc : renderedContent query it with
  | none => simp [hrc]
  | some c =>
    cases hf : snap.find? (fun p => p.2 == it) <;> simp [hrc, hf]

/-- Each loop iteration bumps `item_count` exactly when the item
matches. -/
theorem processItem_count (query it : List Char) (snap : List (Nat × List Char))
    (acc : UpdAcc) :
    (processItem query snap acc it).count =
      acc.count + (if renders query it then 1 else 0) := by
  unfold processItem renders
  cases hrc : renderedContent query it with
  | none => simp [hrc]
  | some c =>
    cases hf : snap.find? (fun p => p.2 == it) <;> simp [hrc, hf]

/-- After the loop, `shown_items` is exactly the matching items in
order. -/
theorem foldl_shown (query : List Char) (snap : List (Nat × List Char))
    (items : List (List Char)) (acc : UpdAcc) :
    (items.foldl (processItem query snap) acc).shown =
      acc.shown ++ items.filter (renders query) := by
  induction items generalizing acc with
  | nil => simp
  | cons it t ih =>
    rw [List.foldl_cons, ih, processItem_shown, List.filter_cons]
    by_cases hr : renders query it <;> simp [hr]

/-- After the loop, `item_count` is the number of matching items. -/
theorem foldl_count (query : List Char) (snap : List (Nat × List Char))
    (items : List (List Char)) (acc : UpdAcc) :
    (items.foldl (processItem query snap) acc).count =
      acc.count + items.countP (renders query) := by
  induction items generalizing acc with
  | nil => simp
  | cons it t ih =>
    rw [List.foldl_cons, ih, processItem_count, List.countP_cons]
    by_cases hr : renders query it <;> simp [hr] <;> omega

/-- A loop over items none of which match is the identity. -/
theorem foldl_id_of_no_renders {query : List Char} {snap : List (Nat × List Char)}
    {items : List (List Char)} (acc : UpdAcc)
    (h : ∀ it ∈ items, renders query it = false) :
    items.foldl (processItem query snap) acc = acc := by
  induction items generalizing acc with
  | nil => rfl
  | cons it t ih =>
    rw [List.foldl_cons, processItem_none snap acc (h it (List.mem_cons_self it t))]
    exact ih acc (fun x hx => h x (List.mem_cons_of_mem it hx))

/-! ## Claim C3 -/

/-- C3: the merged item list passed to rendering is `exact_items`
followed by exactly those `items` that are not members of `exact_items`,
each part in its original order (the tail is an order-preserving
sublist), and no member of `exact_items` reappears in the tail. -/
theorem c3_merged_item_list (j : JsonResponse) :
    ∃ t, getUniqueItemList j = j.exact_items ++ t ∧
      t.Sublist j.items ∧
      (∀ x ∈ j.exact_items, x ∉ t) ∧
      (∀ x ∈ j.items, x ∉ j.exact_items → x ∈ t) := by
  refine ⟨_, rfl, List.filter_sublist _, ?_, ?_⟩
  · intro x hx hxt
    rw [List.mem_filter] at hxt
    simp only [Bool.not_eq_true'] at hxt
    rcases hxt with ⟨_, hcon⟩
    simp at hcon
    exact hcon hx
  · intro x hx hnx
    rw [List.mem_filter]
    refine ⟨hx, ?_⟩
    simpa using hnx

/-! ## Claim C10 -/

/-- C10: after every successful fetch, `replaceResults` takes the open
branch and never the close branch: the `options` getter returns an array,
which is truthy even when empty, so the condition `!!this.options` is
always true, the results list ends shown even for zero matches, and the
`close()` call is unreachable. -/
theorem c10_replace_results_always_opens (s : WidgetState) (json : JsonResponse)
    (q : List Char) :
    jsArrayTruthy (options (identifyOptions (updateResults s (getUniqueItemList json) q))) = true ∧
    replaceResults s json q =
      openResults (identifyOptions (updateResults s (getUniqueItemList json) q)) ∧
    (replaceResults s json q).resultsShown = true := by
  refine ⟨rfl, rfl, ?_⟩
  show (openResults (identifyOptions (updateResults s (getUniqueItemList json) q))).resultsShown = true
  unfold openResults
  split
  · next h => exact h
  · rfl

/-! ## Claim C7 -/

/-- C7: every fetch cycle with a configured URL dispatches `loadstart`;
a non-2xx response makes `doFetch` throw the status `Error`, and any
failure (HTTP or transport) makes the widget dispatch `error` then
`loadend` and re-throw to the caller; a success applies the response and
dispatches `load` then `loadend`. -/
theorem c7_fetch_cycle_events (s : WidgetState) (q : List Char) (net : NetOutcome) :
    (∀ status body, net = NetOutcome.response false status body →
        doFetch net = Except.error (FetchError.httpStatus status)) ∧
    (∀ e, doFetch net = Except.error e →
        fetchResults s true q net =
          (s, [WidgetEvent.loadstart, WidgetEvent.error, WidgetEvent.loadend],
           Except.error e)) ∧
    (∀ j, doFetch net = Except.ok j →
        fetchResults s true q net =
          (replaceResults s j q,
           [WidgetEvent.loadstart, WidgetEvent.load, WidgetEvent.loadend],
           Except.ok ())) := by
  refine ⟨?_, ?_, ?_⟩
  · rintro status body rfl
    rfl
  · intro e he
    simp [fetchResults, he]
  · intro j hj
    simp [fetchResults, hj]

/-- A concrete payload with empty item lists (a zero-result response). -/
def emptyPayload : JsonResponse :=
  { items := [], exact_items := [], field := [], raw_term := [], term := [], partialFlag := false }

/-- Witness for C7 at a concrete failing response (status 500). -/
theorem c7_fetch_cycle_events_witness :
    doFetch (NetOutcome.response false 500 emptyPayload) =
        Except.error (FetchError.httpStatus 500) ∧
    fetchResults emptyState true ['a'] (NetOutcome.response false 500 emptyPayload) =
      (emptyState, [WidgetEvent.loadstart, WidgetEvent.error, WidgetEvent.loadend],
       Except.error (FetchError.httpStatus 500)) :=
  ⟨(c7_fetch_cycle_events emptyState ['a'] _).1 500 _ rfl,
   (c7_fetch_cycle_events emptyState ['a'] _).2.1 (FetchError.httpStatus 500) rfl⟩

/-! ## Claim C8 -/

/-- C8 fails on `src/src/autocomplete.js`: after request 0's headers
arrive, `doFetch` has already nulled `this.abortController`, so starting
request 1 aborts nothing — two requests are outstanding at once — and
request 0's response, though superseded, is still applied (last), i.e. a
stale response is rendered over a fresh one. -/
theorem c8_stale_response_applied :
    (getPhase (runTrace [NetStep.start, NetStep.headers 0, NetStep.start]).phases 0 =
        some ReqPhase.bodyWait ∧
     getPhase (runTrace [NetStep.start, NetStep.headers 0, NetStep.start]).phases 1 =
        some ReqPhase.headersWait) ∧
    (runTrace staleSchedule).applied = [(1, 2), (0, 2)] := by decide

/-! ## Claim C1 -/

/-- C1 (amended): with distinct cache keys (as in a JS object), if the
cache holds an entry keyed by lowercased `q1` with `partial=false` and
`q1` is a case-insensitive prefix of `q2`, then `fetch(q2)` issues no
network request: it resolves with the payload of some cached entry whose
key either equals lowercased `q2` (exact match, which takes priority) or
is a non-partial prefix of it — the first such key in insertion order,
which is `q1`'s entry only when that entry is the unique candidate.
A network fetch happens exactly when no exact key and no non-partial
prefix key exists. -/
theorem c1_cache_prefix_reuse (cache : AutocompleteCache.Cache) (q1 q2 : List Char)
    (e1 : JsonResponse)
    (hmem : (lowerL q1, e1) ∈ cache)
    (hnp : e1.partialFlag = false)
    (hpre : listStartsWith (lowerL q2) (lowerL q1) = true)
    (hnodup : (cache.map Prod.fst).Nodup) :
    (∃ e', AutocompleteCache.fetch cache q2 = AutocompleteCache.FetchSource.cached e' ∧
       ∃ k, (k, e') ∈ cache ∧
         (k = lowerL q2 ∨
          (e'.partialFlag = false ∧ listStartsWith (lowerL q2) k = true))) ∧
    (∀ e, (lowerL q2, e) ∈ cache →
       AutocompleteCache.fetch cache q2 = AutocompleteCache.FetchSource.cached e) ∧
    (∀ (c : AutocompleteCache.Cache) (q : List Char),
       AutocompleteCache.fetch c q = AutocompleteCache.FetchSource.network ↔
         ∀ p ∈ c, p.1 ≠ lowerL q ∧
           ¬(p.2.partialFlag = false ∧ listStartsWith (lowerL q) p.1 = true)) := by
  refine ⟨?_, ?_, ?_⟩
  · cases hex : cache.find? (fun p => p.1 == lowerL q2) with
    | some p =>
      have hp1 : p.1 = lowerL q2 := by simpa using List.find?_some hex
      have hpmem := List.mem_of_find?_eq_some hex
      exact ⟨p.2, by simp [AutocompleteCache.fetch, AutocompleteCache.findInCache, hex],
        p.1, hpmem, Or.inl hp1⟩
    | none =>
      have hsome :
          (cache.find? (fun p => !p.2.partialFlag && listStartsWith (lowerL q2) p.1)).isSome := by
        rw [List.find?_isSome]
        exact ⟨(lowerL q1, e1), hmem, by simp [hnp, hpre]⟩
      obtain ⟨p, hp⟩ := Option.isSome_iff_exists.mp hsome
      have hppred := List.find?_some hp
      have hpmem := List.mem_of_find?_eq_some hp
      simp only [Bool.and_eq_true, Bool.not_eq_true'] at hppred
      exact ⟨p.2, by simp [AutocompleteCache.fetch, AutocompleteCache.findInCache, hex, hp],
        p.1, hpmem, Or.inr ⟨hppred.1, hppred.2⟩⟩
  · intro e he
    have hsome : (cache.find? (fun p => p.1 == lowerL q2)).isSome := by
      rw [List.find?_isSome]
      exact ⟨(lowerL q2, e), he, by simp⟩
    obtain ⟨p, hp⟩ := Option.isSome_iff_exists.mp hsome
    have hp1 : p.1 = lowerL q2 := by simpa using List.find?_some hp
    have hpmem := List.mem_of_find?_eq_some hp
    have hpe : p = (lowerL q2, e) :=
      nodup_field_eq Prod.fst hnodup p hpmem (lowerL q2, e) he (by simpa using hp1)
    simp [AutocompleteCache.fetch, AutocompleteCache.findInCache, hp, hpe]
  · intro c q
    constructor
    · intro h p hp
      have hA : c.find? (fun pr => pr.1 == lowerL q) = none := by
        cases hA : c.find? (fun pr => pr.1 == lowerL q) with
        | none => rfl
        | some pr =>
          exfalso
          simp [AutocompleteCache.fetch, AutocompleteCache.findInCache, hA] at h
      have hB : c.find? (fun pr => !pr.2.partialFlag && listStartsWith (lowerL q) pr.1) = none := by
        cases hB : c.find? (fun pr => !pr.2.partialFlag && listStartsWith (lowerL q) pr.1) with
        | none => rfl
        | some pr =>
          exfalso
          simp [AutocompleteCache.fetch, AutocompleteCache.findInCache, hA, hB] at h
      constructor
      · have := List.find?_eq_none.mp hA p hp
        simpa using this
      · have := List.find?_eq_none.mp hB p hp
        simp only [Bool.and_eq_true, Bool.not_eq_true'] at this
        exact this
    · intro h
      have hA : c.find? (fun pr => pr.1 == lowerL q) = none :=
        List.find?_eq_none.mpr (fun p hp => by simp [(h p hp).1])
      have hB : c.find? (fun pr => !pr.2.partialFlag && listStartsWith (lowerL q) pr.1) = none := by
        refine List.find?_eq_none.mpr (fun p hp => ?_)
        have := (h p hp).2
        simp only [Bool.and_eq_true, Bool.not_eq_true']
        exact this
      simp [AutocompleteCache.fetch, AutocompleteCache.findInCache, hA, hB]

/-- A concrete non-partial payload tagged `a`. -/
def samplePayloadA : JsonResponse :=
  { items := [], exact_items := [], field := [], raw_term := [], term := ['a'], partialFlag := false }

/-- A concrete non-partial payload tagged `b`. -/
def samplePayloadB : JsonResponse :=
  { items := [], exact_items := [], field := [], raw_term := [], term := ['b'], partialFlag := false }

/-- A cache holding two non-partial entries, key `"j"` inserted before
key `"john"`. -/
def c1Cache : AutocompleteCache.Cache :=
  [(['j'], samplePayloadA), (['j', 'o', 'h', 'n'], samplePayloadB)]

/-- C1 counterexample: with `q1 = "john"` cached (non-partial) and
`q2 = "johnny"`, the claim's hypotheses all hold, yet `fetch(q2)` does
not resolve with `q1`'s payload — the scan returns the earlier-inserted
non-partial prefix entry `"j"` instead. -/
theorem c1_counterexample :
    (lowerL ['j', 'o', 'h', 'n'], samplePayloadB) ∈ c1Cache ∧
    samplePayloadB.partialFlag = false ∧
    listStartsWith (lowerL ['j', 'o', 'h', 'n', 'n', 'y']) (lowerL ['j', 'o', 'h', 'n']) = true ∧
    (∀ p ∈ c1Cache, p.1 ≠ lowerL ['j', 'o', 'h', 'n', 'n', 'y']) ∧
    AutocompleteCache.fetch c1Cache ['j', 'o', 'h', 'n', 'n', 'y'] ≠
      AutocompleteCache.FetchSource.cached samplePayloadB ∧
    AutocompleteCache.fetch c1Cache ['j', 'o', 'h', 'n', 'n', 'y'] =
      AutocompleteCache.FetchSource.cached samplePayloadA := by decide

/-- A one-entry cache for the C1 witness: only `"john"` is cached. -/
def c1WitnessCache : AutocompleteCache.Cache :=
  [(['j', 'o', 'h', 'n'], samplePayloadB)]

/-- Witness for C1 (amended) at concrete mixed-case queries `"John"` and
`"JOHNNY"`. -/
theorem c1_cache_prefix_reuse_witness :
    samplePayloadB.partialFlag = false ∧
    (∃ e', AutocompleteCache.fetch c1WitnessCache ['J', 'O', 'H', 'N', 'N', 'Y'] =
        AutocompleteCache.FetchSource.cached e' ∧
      ∃ k, (k, e') ∈ c1WitnessCache ∧
        (k = lowerL ['J', 'O', 'H', 'N', 'N', 'Y'] ∨
         (e'.partialFlag = false ∧
          listStartsWith (lowerL ['J', 'O', 'H', 'N', 'N', 'Y']) k = true))) :=
  ⟨by decide,
   (c1_cache_prefix_reuse c1WitnessCache ['J', 'o', 'h', 'n'] ['J', 'O', 'H', 'N', 'N', 'Y']
      samplePayloadB (by decide) (by decide) (by decide) (by decide)).1⟩

/-- One loop iteration preserves "no placeholder in the container". -/
theorem processItem_keeps_clean {query it : List Char} {snap : List (Nat × List Char)}
    {acc : UpdAcc} (h : ∀ li ∈ acc.lis, isSorryLi li = false) :
    ∀ li ∈ (processItem query snap acc it).lis, isSorryLi li = false := by
  unfold processItem
  cases hrc : renderedContent query it with
  | none => exact h
  | some c =>
    cases hf : snap.find? (fun p => p.2 == it) with
    | some p =>
      intro li hli
      simp only [setChildren, List.mem_map] at hli
      obtain ⟨li0, hli0, rfl⟩ := hli
      by_cases hid : li0.elemId = p.1
      · simpa [isSorryLi, hid] using h li0 hli0
      · simpa [isSorryLi, hid] using h li0 hli0
    | none =>
      intro li hli
      rcases mem_insertAfter.mp hli with hold | rfl
      · exact h li hold
      · rfl

/-- The whole loop preserves "no placeholder in the container". -/
theorem foldl_keeps_clean {query : List Char} {snap : List (Nat × List Char)}
    {items : List (List Char)} {acc : UpdAcc}
    (h : ∀ li ∈ acc.lis, isSorryLi li = false) :
    ∀ li ∈ (items.foldl (processItem query snap) acc).lis, isSorryLi li = false := by
  induction items generalizing acc with
  | nil => exact h
  | cons it t ih => exact ih (processItem_keeps_clean h)

/-- `openResults` does not touch the container's children. -/
theorem openResults_lis (s : WidgetState) : (openResults s).lis = s.lis := by
  unfold openResults
  split <;> rfl

/-- `updateResults` on a container of clean option elements, when no item
matches: every previous option is removed and a single fresh placeholder
is appended; `item_count` becomes 0, element creation used one identity. -/
theorem updateResults_zero (s : WidgetState) (items : List (List Char)) (q : List Char)
    (hclean : ∀ li ∈ s.lis, li.isOption = true ∧ li.ariaDisabled = false)
    (hnone : ∀ it ∈ items, renders q it = false) :
    updateResults s items q =
      { lis := [sorryLiOf s.nextId q], item_count := 0,
        resultsShown := s.resultsShown, nextId := s.nextId + 1 } := by
  have hopts : options s = s.lis :=
    List.filter_eq_self.mpr (fun li hli => by simp [(hclean li hli).1, (hclean li hli).2])
  have hfold : ∀ (acc : UpdAcc),
      items.foldl (processItem q ((options s).map (fun li => (li.elemId, li.value)))) acc = acc :=
    fun acc => foldl_id_of_no_renders acc hnone
  have hfilter : ∀ (sh : List (List Char)), sh = [] →
      s.lis.filter (fun li =>
        !(((options s).map (fun li => (li.elemId, li.value))).any (fun p => p.1 == li.elemId) &&
          !(sh.contains li.value))) = [] := by
    intro sh hsh
    subst hsh
    refine List.filter_eq_nil_iff.mpr (fun li hli => ?_)
    have hmem : ((li.elemId, li.value) : Nat × List Char) ∈
        (options s).map (fun li => (li.elemId, li.value)) :=
      List.mem_map.mpr ⟨li, hopts ▸ hli, rfl⟩
    have hany : ((options s).map (fun li => (li.elemId, li.value))).any
        (fun p => p.1 == li.elemId) = true :=
      List.any_eq_true.mpr ⟨(li.elemId, li.value), hmem, by simp⟩
    simp [hany]
  simp only [updateResults, hfold]
  rw [hfilter [] rfl]
  simp [showSorryMessage]

/-- `openResults` always leaves the list shown. -/
theorem openResults_shown (s : WidgetState) : (openResults s).resultsShown = true := by
  unfold openResults
  split
  · next h => exact h
  · rfl

/-- `updateResults` never leaves a placeholder when some item matches and
none was present before. -/
theorem updateResults_clean_of_pos (s : WidgetState) (items : List (List Char)) (q : List Char)
    (hnoplaceholder : ∀ li ∈ s.lis, isSorryLi li = false)
    (hpos : 0 < items.countP (renders q)) :
    ∀ li ∈ (updateResults s items q).lis, isSorryLi li = false := by
  simp only [updateResults]
  rw [foldl_count]
  rw [if_neg (by omega)]
  intro li hli
  unfold hideSorryMessage at hli
  have hL : ∀ x ∈ (List.foldl (processItem q ((options s).map (fun li => (li.elemId, li.value))))
      { lis := s.lis, last_li := none, nextId := s.nextId, count := 0, shown := [] } items).lis,
      isSorryLi x = false := foldl_keeps_clean hnoplaceholder
  have hL1 : ∀ x ∈ (List.foldl (processItem q ((options s).map (fun li => (li.elemId, li.value))))
      { lis := s.lis, last_li := none, nextId := s.nextId, count := 0, shown := [] } items).lis.filter
        (fun li => !((((options s).map (fun li => (li.elemId, li.value))).any
          (fun p => p.1 == li.elemId)) && !((List.foldl (processItem q ((options s).map (fun li => (li.elemId, li.value))))
            { lis := s.lis, last_li := none, nextId := s.nextId, count := 0, shown := [] } items).shown.contains li.value))),
      isSorryLi x = false := fun x hx => hL x (List.mem_filter.mp hx).1
  rw [List.find?_eq_none.mpr (fun x hx => by simp [hL1 x hx])] at hli
  exact hL1 li hli

/-! ## Claim C2 -/

/-- C2 (amended): starting from a container of clean option elements
(no placeholder present), a render pass whose merged list matches zero
items leaves exactly one disabled placeholder `<li>` holding the text
`No results found for "<query>"` — and the results list is OPENED, not
closed (`replaceResults` always takes the open branch); when at least one
item matches, no placeholder is present after the pass. -/
theorem c2_no_results_placeholder (s : WidgetState) (json : JsonResponse) (q : List Char)
    (hclean : ∀ li ∈ s.lis, li.isOption = true ∧ li.ariaDisabled = false ∧ isSorryLi li = false) :
    ((getUniqueItemList json).countP (renders q) = 0 →
        (replaceResults s json q).lis = [sorryLiOf s.nextId q] ∧
        (sorryLiOf s.nextId q).ariaDisabled = true ∧
        isSorryLi (sorryLiOf s.nextId q) = true ∧
        (sorryLiOf s.nextId q).children = LiContent.text (noResultsText q) ∧
        (replaceResults s json q).resultsShown = true) ∧
    (0 < (getUniqueItemList json).countP (renders q) →
        ∀ li ∈ (replaceResults s json q).lis, isSorryLi li = false) := by
  have hrepl : replaceResults s json q =
      openResults (updateResults s (getUniqueItemList json) q) := rfl
  constructor
  · intro h0
    have hnone : ∀ it ∈ getUniqueItemList json, renders q it = false :=
      fun it hit => by simpa using List.countP_eq_zero.mp h0 it hit
    have hz := updateResults_zero s (getUniqueItemList json) q
      (fun li hli => ⟨(hclean li hli).1, (hclean li hli).2.1⟩) hnone
    rw [hrepl, hz]
    refine ⟨by rw [openResults_lis], rfl, rfl, rfl, openResults_shown _⟩
  · intro hpos
    rw [hrepl]
    intro li hli
    rw [openResults_lis] at hli
    exact updateResults_clean_of_pos s (getUniqueItemList json) q
      (fun li hli => (hclean li hli).2.2) hpos li hli

/-- C2 counterexample: the claim as stated is false on the code — after a
second zero-result pass the container holds TWO placeholders (the first
is never removed by `showSorryMessage` in `src/src/autocomplete.js`), and
the results list is shown (open), not closed. -/
theorem c2_counterexample :
    (replaceResults (replaceResults emptyState emptyPayload ['a', 'b'])
        emptyPayload ['a', 'b']).lis.countP isSorryLi = 2 ∧
    (replaceResults (replaceResults emptyState emptyPayload ['a', 'b'])
        emptyPayload ['a', 'b']).resultsShown = true := by decide

/-- Witness for C2 (amended) at the empty container and a zero-result
response for query `"ab"`. -/
theorem c2_no_results_placeholder_witness :
    (getUniqueItemList emptyPayload).countP (renders ['a', 'b']) = 0 ∧
    ((replaceResults emptyState emptyPayload ['a', 'b']).lis =
        [sorryLiOf emptyState.nextId ['a', 'b']] ∧
     (sorryLiOf emptyState.nextId ['a', 'b']).ariaDisabled = true ∧
     isSorryLi (sorryLiOf emptyState.nextId ['a', 'b']) = true ∧
     (sorryLiOf emptyState.nextId ['a', 'b']).children =
        LiContent.text (noResultsText ['a', 'b']) ∧
     (replaceResults emptyState emptyPayload ['a', 'b']).resultsShown = true) :=
  ⟨by decide,
   (c2_no_results_placeholder emptyState emptyPayload ['a', 'b']
      (by intro li hli; cases hli)).1 (by decide)⟩

/-! ## Claim C5 -/

/-- When every matching item already has its element rendered with the
current content, the merge loop leaves the container untouched and
creates nothing. -/
theorem foldl_id_of_rendered (s : WidgetState) (q : List Char)
    (hids : (s.lis.map LiElem.elemId).Nodup)
    (hclean : ∀ li ∈ s.lis, li.isOption = true ∧ li.ariaDisabled = false)
    (hcontent : ∀ li ∈ s.lis, renderedContent q li.value = some li.children) :
    ∀ (items : List (List Char)),
      (∀ it ∈ items, renders q it = true → ∃ li ∈ s.lis, li.value = it) →
      ∀ (acc : UpdAcc), acc.lis = s.lis → acc.nextId = s.nextId →
      (items.foldl (processItem q ((options s).map (fun li => (li.elemId, li.value)))) acc).lis = s.lis ∧
      (items.foldl (processItem q ((options s).map (fun li => (li.elemId, li.value)))) acc).nextId = s.nextId := by
  have hopts : options s = s.lis :=
    List.filter_eq_self.mpr (fun li hli => by simp [(hclean li hli).1, (hclean li hli).2])
  intro items
  induction items with
  | nil => intro _ acc h1 h2; exact ⟨h1, h2⟩
  | cons it t ih =>
    intro hcompl acc h1 h2
    rw [List.foldl_cons]
    by_cases hr : renders q it = true
    · obtain ⟨li0, hli0, hval⟩ := hcompl it (List.mem_cons_self it t) hr
      unfold renders at hr
      obtain ⟨c, hc⟩ := Option.isSome_iff_exists.mp hr
      have hsome :
          (((options s).map (fun li => (li.elemId, li.value))).find?
            (fun p => p.2 == it)).isSome := by
        rw [List.find?_isSome]
        exact ⟨(li0.elemId, li0.value),
          List.mem_map.mpr ⟨li0, hopts ▸ hli0, rfl⟩, by simp [hval]⟩
      obtain ⟨p, hp⟩ := Option.isSome_iff_exists.mp hsome
      have hppred : p.2 = it := by simpa using List.find?_some hp
      obtain ⟨li1, hli1, hp1⟩ := List.mem_map.mp (List.mem_of_find?_eq_some hp)
      have hli1s : li1 ∈ s.lis := hopts ▸ hli1
      have hstep : processItem q ((options s).map (fun li => (li.elemId, li.value))) acc it =
          { acc with
            lis := setChildren acc.lis p.1 c
            last_li := some p.1
            count := acc.count + 1
            shown := acc.shown ++ [it] } := by
        unfold processItem
        rw [hc, hp]
      rw [hstep]
      have hset : setChildren acc.lis p.1 c = acc.lis := by
        rw [h1]
        refine setChildren_id (fun li hli hid => ?_)
        have heq : li = li1 := by
          refine nodup_field_eq LiElem.elemId hids li hli li1 hli1s ?_
          rw [hid, ← hp1]
        have hcli1 := hcontent li1 hli1s
        have hv1 : li1.value = it := by rw [← hp1] at hppred; exact hppred
        rw [hv1, hc] at hcli1
        rw [heq, Option.some_inj.mp hcli1]
      exact ih (fun x hx hrx => hcompl x (List.mem_cons_of_mem it hx) hrx) _
        (by exact hset.trans h1) (by simpa using h2)
    · rw [processItem_none _ acc (by simpa using hr)]
      exact ih (fun x hx hrx => hcompl x (List.mem_cons_of_mem it hx) hrx) acc h1 h2

/-- C5 (amended): re-running the merge/render pass on a state whose
rendered elements are exactly the matching items of the list, with
current-query content, changes nothing at all — no element is created or
destroyed, every element is reused in place (full state equality).  This
requires at least one matching item: with zero matches each pass appends
a fresh placeholder element instead (see the counterexample). -/
theorem c5_idempotent_render (s : WidgetState) (items : List (List Char)) (q : List Char)
    (hids : (s.lis.map LiElem.elemId).Nodup)
    (hclean : ∀ li ∈ s.lis, li.isOption = true ∧ li.ariaDisabled = false ∧ isSorryLi li = false)
    (hcontent : ∀ li ∈ s.lis, li.value ∈ items ∧ renderedContent q li.value = some li.children)
    (hcomplete : ∀ it ∈ items, renders q it = true → ∃ li ∈ s.lis, li.value = it)
    (hcount : s.item_count = items.countP (renders q))
    (hpos : 0 < s.item_count) :
    updateResults s items q = s := by
  simp only [updateResults]
  obtain ⟨hflis, hfnext⟩ := foldl_id_of_rendered s q hids
    (fun li hli => ⟨(hclean li hli).1, (hclean li hli).2.1⟩)
    (fun li hli => (hcontent li hli).2) items hcomplete
    { lis := s.lis, last_li := none, nextId := s.nextId, count := 0, shown := [] } rfl rfl
  rw [foldl_count] at *
  rw [hflis, hfnext, foldl_shown]
  have hfilter : s.lis.filter (fun li =>
      !((((options s).map (fun li => (li.elemId, li.value))).any (fun p => p.1 == li.elemId)) &&
        !(([] ++ items.filter (renders q)).contains li.value))) = s.lis := by
    refine List.filter_eq_self.mpr (fun li hli => ?_)
    have hv := hcontent li hli
    have hrli : renders q li.value = true := by
      unfold renders
      rw [hv.2]
      rfl
    have hmemf : li.value ∈ items.filter (renders q) :=
      List.mem_filter.mpr ⟨hv.1, hrli⟩
    simp [hmemf]
  rw [hfilter, if_neg (by omega)]
  unfold hideSorryMessage
  rw [List.find?_eq_none.mpr (fun x hx => by simp [(hclean x hx).2.2])]
  rw [← hcount]
  simp

/-- C5 counterexample: re-rendering an (empty) item list identical to the
currently rendered one is NOT identity-preserving when nothing matches —
the pass appends a second placeholder element, growing the container from
one child to two. -/
theorem c5_counterexample :
    (updateResults emptyState [] ['a']).lis.length = 1 ∧
    (updateResults (updateResults emptyState [] ['a']) [] ['a']).lis.length = 2 := by decide

/-- The concrete item list for the C5 witness. -/
def c5Items : List (List Char) :=
  [['J', 'o', 'h', 'n'], ['J', 'o', 'h', 'n', 'n', 'y']]

/-- The state rendered from the empty container for the C5 witness. -/
def c5State : WidgetState := updateResults emptyState c5Items ['j', 'o', 'h', 'n']

/-- Witness for C5 (amended): a second pass over the same two items is the
identity on the rendered state. -/
theorem c5_idempotent_render_witness :
    0 < c5State.item_count ∧
    updateResults c5State c5Items ['j', 'o', 'h', 'n'] = c5State :=
  ⟨by decide,
   c5_idempotent_render c5State c5Items ['j', 'o', 'h', 'n'] (by decide) (by decide)
     (by decide) (by decide) (by decide) (by decide)⟩

/-! ## Claim C9 -/

/-- `unselectPrevious` keeps element identities in place. -/
theorem unselectPrevious_map_id (s : WidgetState) :
    (unselectPrevious s).lis.map LiElem.elemId = s.lis.map LiElem.elemId := by
  unfold unselectPrevious
  cases selectedOption s with
  | none => rfl
  | some prev =>
    simp only [List.map_map]
    refine List.map_congr_left (fun li _ => ?_)
    by_cases hid : li.elemId = prev.elemId
    · simp [hid]
    · simp [hid]

/-- After `select`'s deselection half, nothing is selected (given the
at-most-one invariant). -/
theorem unselectPrevious_count (s : WidgetState)
    (hone : s.lis.countP (fun li => li.ariaSelected) ≤ 1) :
    (unselectPrevious s).lis.countP (fun li => li.ariaSelected) = 0 := by
  unfold unselectPrevious
  cases hsel : selectedOption s with
  | none =>
    have hall := List.find?_eq_none.mp hsel
    exact List.countP_eq_zero.mpr (fun li hli => by simpa using hall li hli)
  | some prev =>
    have hpmem := List.mem_of_find?_eq_some hsel
    have hpsel : prev.ariaSelected = true := List.find?_some hsel
    rw [List.countP_map]
    refine List.countP_eq_zero.mpr (fun li hli => ?_)
    by_cases hid : li.elemId = prev.elemId
    · simp [Function.comp, hid]
    · simp only [Function.comp, if_neg hid]
      intro habs
      exact hid (congrArg LiElem.elemId
        (countP_le_one_eq hone li hli habs prev hpmem hpsel))

/-- In a list whose identities are distinct, at most one element carries
a given identity. -/
theorem countP_id_le_one (l : List LiElem) (h : (l.map LiElem.elemId).Nodup) (t : Nat) :
    l.countP (fun li => li.elemId == t) ≤ 1 := by
  induction l with
  | nil => simp
  | cons x xs ih =>
    simp only [List.map_cons, List.nodup_cons] at h
    rw [List.countP_cons]
    by_cases hx : x.elemId = t
    · have hzero : xs.countP (fun li => li.elemId == t) = 0 := by
        refine List.countP_eq_zero.mpr (fun y hy => ?_)
        intro habs
        have : y.elemId = t := by simpa using habs
        exact h.1 (List.mem_map.mpr ⟨y, hy, by rw [this, hx]⟩)
      simp [hx, hzero]
    · simp only [beq_iff_eq, if_neg hx]
      simpa using ih h.2

/-- `select(target)` restores the at-most-one-selected invariant: it
first clears the previous selection, then marks at most the single
element with the target's identity. -/
theorem select_at_most_one (s : WidgetState) (target : LiElem)
    (hids : (s.lis.map LiElem.elemId).Nodup)
    (hone : s.lis.countP (fun li => li.ariaSelected) ≤ 1) :
    (select s target).lis.countP (fun li => li.ariaSelected) ≤ 1 := by
  unfold select
  have h0 := unselectPrevious_count s hone
  split
  · rw [List.countP_map]
    have hids1 : ((unselectPrevious s).lis.map LiElem.elemId).Nodup := by
      rw [unselectPrevious_map_id]; exact hids
    have hcong : ((unselectPrevious s).lis.countP
        ((fun li => li.ariaSelected) ∘ (fun li =>
          if li.elemId = target.elemId then
            { li with ariaSelected := true,
                      classes := addClasses li.classes selectedClassesOrDefault }
          else li))) =
        (unselectPrevious s).lis.countP (fun li => li.elemId == target.elemId) := by
      refine List.countP_congr (fun li hli => ?_)
      by_cases hid : li.elemId = target.elemId
      · simp [Function.comp, hid]
      · simp only [Function.comp, if_neg hid, beq_iff_eq, iff_false, hid]
        exact fun habs =>
          absurd habs (by simpa using List.countP_eq_zero.mp h0 li hli)
    rw [hcong]
    exact countP_id_le_one _ hids1 _
  · exact h0.le.trans (Nat.zero_le 1)

/-- The merge loop never increases the number of selected elements. -/
theorem processItem_sel_count (query it : List Char) (snap : List (Nat × List Char))
    (acc : UpdAcc) :
    (processItem query snap acc it).lis.countP (fun li => li.ariaSelected) =
      acc.lis.countP (fun li => li.ariaSelected) := by
  unfold processItem
  cases hrc : renderedContent query it with
  | none => rfl
  | some c =>
    cases hf : snap.find? (fun p => p.2 == it) with
    | some p =>
      exact countP_setChildren (fun li => li.ariaSelected) (fun li c => rfl) _ _ _
    | none =>
      rw [countP_insertAfter]
      simp

/-- The whole loop never increases the number of selected elements. -/
theorem foldl_sel_count (query : List Char) (snap : List (Nat × List Char))
    (items : List (List Char)) (acc : UpdAcc) :
    (items.foldl (processItem query snap) acc).lis.countP (fun li => li.ariaSelected) =
      acc.lis.countP (fun li => li.ariaSelected) := by
  induction items generalizing acc with
  | nil => rfl
  | cons it t ih => rw [List.foldl_cons, ih, processItem_sel_count]

/-- A full `updateResults` pass preserves the at-most-one-selected
invariant (it removes or reuses elements and creates only unselected
ones). -/
theorem updateResults_at_most_one (s : WidgetState) (items : List (List Char))
    (q : List Char) (hone : s.lis.countP (fun li => li.ariaSelected) ≤ 1) :
    (updateResults s items q).lis.countP (fun li => li.ariaSelected) ≤ 1 := by
  simp only [updateResults]
  have hfold := foldl_sel_count q ((options s).map (fun li => (li.elemId, li.value))) items
    { lis := s.lis, last_li := none, nextId := s.nextId, count := 0, shown := [] }
  have hfilter : (((List.foldl (processItem q ((options s).map (fun li => (li.elemId, li.value))))
      { lis := s.lis, last_li := none, nextId := s.nextId, count := 0, shown := [] } items).lis.filter
          (fun li => !((((options s).map (fun li => (li.elemId, li.value))).any
            (fun p => p.1 == li.elemId)) && !((List.foldl (processItem q ((options s).map (fun li => (li.elemId, li.value))))
              { lis := s.lis, last_li := none, nextId := s.nextId, count := 0, shown := [] } items).shown.contains li.value)))).countP
        (fun li => li.ariaSelected)) ≤ 1 := by
    calc _ ≤ (List.foldl (processItem q ((options s).map (fun li => (li.elemId, li.value))))
        { lis := s.lis, last_li := none, nextId := s.nextId, count := 0, shown := [] } items).lis.countP
          (fun li => li.ariaSelected) := (List.filter_sublist _).countP_le _
    _ ≤ 1 := by rw [hfold]; exact hone
  split
  · unfold showSorryMessage
    simp only [List.countP_append]
    simpa using hfilter
  · unfold hideSorryMessage
    split
    · unfold removeById
      calc _ ≤ _ := (List.filter_sublist _).countP_le _
      _ ≤ 1 := hfilter
    · exact hfilter

/-- C9: from a state with distinct element identities where at most one
option carries the aria-selected attribute, every selection-changing
operation — `select(target)` for any target, either arrow-key handler,
a render pass, and a full `replaceResults` — leaves at most one element
selected: `select` removes the attribute from the previous selection
before marking the new target. -/
theorem c9_at_most_one_selected (s : WidgetState) (target : LiElem)
    (items : List (List Char)) (q : List Char) (json : JsonResponse)
    (hids : (s.lis.map LiElem.elemId).Nodup)
    (hone : s.lis.countP (fun li => li.ariaSelected) ≤ 1) :
    (select s target).lis.countP (fun li => li.ariaSelected) ≤ 1 ∧
    (onArrowDownKeydown s).lis.countP (fun li => li.ariaSelected) ≤ 1 ∧
    (onArrowUpKeydown s).lis.countP (fun li => li.ariaSelected) ≤ 1 ∧
    (updateResults s items q).lis.countP (fun li => li.ariaSelected) ≤ 1 ∧
    (replaceResults s json q).lis.countP (fun li => li.ariaSelected) ≤ 1 := by
  refine ⟨select_at_most_one s target hids hone, ?_, ?_,
    updateResults_at_most_one s items q hone, ?_⟩
  · unfold onArrowDownKeydown
    cases sibling s true with
    | some item => exact select_at_most_one s item hids hone
    | none => exact hone
  · unfold onArrowUpKeydown
    cases sibling s false with
    | some item => exact select_at_most_one s item hids hone
    | none => exact hone
  · have : replaceResults s json q =
        openResults (updateResults s (getUniqueItemList json) q) := rfl
    rw [this, openResults_lis]
    exact updateResults_at_most_one s (getUniqueItemList json) q hone

/-- Witness for C9 at a concrete two-option state with one selected. -/
theorem c9_at_most_one_selected_witness :
    (c5State.lis.map LiElem.elemId).Nodup ∧
    (select c5State (sorryLiOf 9 ['x'])).lis.countP (fun li => li.ariaSelected) ≤ 1 ∧
    (onArrowDownKeydown c5State).lis.countP (fun li => li.ariaSelected) ≤ 1 :=
  ⟨by decide,
   (c9_at_most_one_selected c5State (sorryLiOf 9 ['x']) [] [] emptyPayload
      (by decide) (by decide)).1,
   (c9_at_most_one_selected c5State (sorryLiOf 9 ['x']) [] [] emptyPayload
      (by decide) (by decide)).2.1⟩

/-! ## Claim C6 -/

/-- `jsIndex` only returns members of the list. -/
theorem jsIndex_mem {l : List LiElem} {i : Int} {x : LiElem}
    (h : jsIndex l i = some x) : x ∈ l := by
  unfold jsIndex at h
  split at h
  · exact List.get?_mem h
  · cases h

/-- Whatever `sibling` returns is one of the (enabled) options. -/
theorem sibling_mem {s : WidgetState} {b : Bool} {x : LiElem}
    (h : sibling s b = some x) : x ∈ options s := by
  rw [sibling_eq] at h
  cases hsib : (if b then jsIndex (options s) (siblingIndex s + 1)
      else jsIndex (options s) (siblingIndex s - 1)) with
  | some y =>
    rw [hsib] at h
    cases h
    cases b with
    | true => exact jsIndex_mem (by simpa using hsib)
    | false => exact jsIndex_mem (by simpa using hsib)
  | none =>
    rw [hsib] at h
    cases b with
    | true =>
      simp only [if_pos] at h
      exact List.mem_of_mem_head? (by rw [h]; exact rfl)
    | false =>
      simp only [if_neg] at h
      rw [List.getLast?_eq_get?] at h
      exact List.get?_mem h

/-- With nothing selected, `sibling(true)` is the first option
(`options[-1 + 1]`, with `options[0]` again as the fallback). -/
theorem sibling_none_true (s : WidgetState) (hsel : selectedOption s = none) :
    sibling s true = (options s).head? := by
  rw [sibling_eq]
  have hidx : siblingIndex s = -1 := by unfold siblingIndex; rw [hsel]
  have hj : jsIndex (options s) (siblingIndex s + 1) = (options s).head? := by
    rw [hidx]
    unfold jsIndex
    norm_num
    cases options s <;> simp
  cases hh : (options s).head? with
  | none => simp [hj, hh]
  | some a => simp [hj, hh]

/-- With nothing selected, `sibling(false)` is the last option
(`options[-1 - 1]` is `undefined`, so the fallback
`options[options.length - 1]` is used). -/
theorem sibling_none_false (s : WidgetState) (hsel : selectedOption s = none) :
    sibling s false = (options s).getLast? := by
  rw [sibling_eq]
  have hidx : siblingIndex s = -1 := by unfold siblingIndex; rw [hsel]
  have hj : jsIndex (options s) (siblingIndex s - 1) = none := by
    rw [hidx]
    unfold jsIndex
    norm_num
  simp [hj]

/-- In a list of elements with distinct identities, the index of the last
element's identity is the last position. -/
theorem findIdx?_last_of_nodup (l : List LiElem)
    (hnd : (l.map LiElem.elemId).Nodup) (x : LiElem) (hx : l.getLast? = some x) :
    l.findIdx? (fun li => li.elemId == x.elemId) = some (l.length - 1) := by
  induction l with
  | nil => cases hx
  | cons y t ih =>
    cases t with
    | nil =>
      cases hx
      simp [List.findIdx?_cons]
    | cons z t' =>
      rw [List.getLast?_cons_cons] at hx
      have hxmem : x ∈ z :: t' := by
        rw [List.getLast?_eq_get?] at hx
        exact List.get?_mem hx
      rw [List.map_cons, List.nodup_cons] at hnd
      have hyx : (y.elemId == x.elemId) = false := by
        by_contra habs
        have : y.elemId = x.elemId := by
          cases hb : (y.elemId == x.elemId)
          · exact absurd hb habs
          · exact beq_iff_eq.mp hb
        exact hnd.1 (this ▸ List.mem_map_of_mem LiElem.elemId hxmem)
      rw [List.findIdx?_cons, hyx]
      simp only [Bool.false_eq_true, if_false, List.findIdx?_succ]
      have := ih hnd.2 hx
      rw [this]
      simp [List.length_cons]

/-- Unfolding equation for `select`. -/
theorem select_eq (s : WidgetState) (target : LiElem) :
    select s target =
      if s.item_count > 0 && !(target.classes.contains "disabled") then
        { unselectPrevious s with
          lis := (unselectPrevious s).lis.map (fun li =>
            if li.elemId = target.elemId then
              { li with ariaSelected := true,
                        classes := addClasses li.classes selectedClassesOrDefault }
            else li) }
      else unselectPrevious s := rfl

/-- `contains` is false exactly for non-members. -/
theorem contains_false_iff (l : List String) (c : String) :
    l.contains c = false ↔ c ∉ l := by
  constructor
  · intro h
    simp at h
    exact h
  · intro h
    simp [h]

/-- Each element after `unselectPrevious` is a member of the original
container with the same identity and flags, its classes at most stripped
of the selected classes. -/
theorem unselectPrevious_mem (s : WidgetState) :
    ∀ y ∈ (unselectPrevious s).lis, ∃ z ∈ s.lis,
      y.elemId = z.elemId ∧ y.ariaDisabled = z.ariaDisabled ∧
      y.isOption = z.isOption ∧
      (y.classes = z.classes ∨
       y.classes = removeClasses z.classes selectedClassesOrDefault) := by
  intro y hy
  unfold unselectPrevious at hy
  cases hsel : selectedOption s with
  | none =>
    rw [hsel] at hy
    exact ⟨y, hy, rfl, rfl, rfl, Or.inl rfl⟩
  | some prev =>
    rw [hsel] at hy
    obtain ⟨z, hz, hzy⟩ := List.mem_map.mp hy
    by_cases hid : z.elemId = prev.elemId
    · rw [if_pos hid] at hzy
      exact ⟨z, hz, by rw [← hzy], by rw [← hzy], by rw [← hzy],
        Or.inr (by rw [← hzy])⟩
    · rw [if_neg hid] at hzy
      exact ⟨z, hz, by rw [← hzy], by rw [← hzy], by rw [← hzy],
        Or.inl (by rw [← hzy])⟩

/-- `select(target)` on a live target (with a positive `item_count` and
no `disabled` class on the target) leaves exactly the target's element
as the selected option. -/
theorem selectedOption_select (s : WidgetState) (target : LiElem)
    (hone : s.lis.countP (fun li => li.ariaSelected) ≤ 1)
    (htar : target ∈ s.lis)
    (hg1 : 0 < s.item_count)
    (hg2 : target.classes.contains "disabled" = false) :
    (selectedOption (select s target)).map LiElem.elemId = some target.elemId := by
  rw [select_eq, if_pos (by simp [hg1, (contains_false_iff _ _).mp hg2])]
  have h0 : (unselectPrevious s).lis.countP (fun li => li.ariaSelected) = 0 :=
    unselectPrevious_count s hone
  have hidmem : target.elemId ∈ (unselectPrevious s).lis.map LiElem.elemId := by
    rw [unselectPrevious_map_id]
    exact List.mem_map_of_mem _ htar
  obtain ⟨y, hy, hye⟩ := List.mem_map.mp hidmem
  have hsome : (((unselectPrevious s).lis.map (fun li =>
      if li.elemId = target.elemId then
        { li with ariaSelected := true,
                  classes := addClasses li.classes selectedClassesOrDefault }
      else li)).find? (fun li => li.ariaSelected)).isSome := by
    rw [List.find?_isSome]
    refine ⟨_, List.mem_map_of_mem _ hy, ?_⟩
    rw [if_pos hye]
  obtain ⟨x, hx⟩ := Option.isSome_iff_exists.mp hsome
  have hxsel : x.ariaSelected = true := List.find?_some hx
  obtain ⟨y', hy', hxy'⟩ := List.mem_map.mp (List.mem_of_find?_eq_some hx)
  have hgoal : selectedOption { unselectPrevious s with
      lis := (unselectPrevious s).lis.map (fun li =>
        if li.elemId = target.elemId then
          { li with ariaSelected := true,
                    classes := addClasses li.classes selectedClassesOrDefault }
        else li) } = some x := hx
  rw [hgoal]
  by_cases hid : y'.elemId = target.elemId
  · rw [if_pos hid] at hxy'
    rw [← hxy']
    simpa using hid
  · rw [if_neg hid] at hxy'
    subst hxy'
    exact absurd hxsel (by simpa using List.countP_eq_zero.mp h0 y' hy')

/-- After `select(target)` on an enabled target, every selected element
is enabled: not aria-disabled and without the `disabled` class.  (When
the guard fails, nothing at all is left selected.) -/
theorem select_enabled (s : WidgetState) (target : LiElem)
    (hids : (s.lis.map LiElem.elemId).Nodup)
    (hone : s.lis.countP (fun li => li.ariaSelected) ≤ 1)
    (htar : target ∈ s.lis) (htd : target.ariaDisabled = false)
    (hg2 : target.classes.contains "disabled" = false) :
    ∀ li ∈ (select s target).lis, li.ariaSelected = true →
      li.ariaDisabled = false ∧ li.classes.contains "disabled" = false := by
  have h0 : (unselectPrevious s).lis.countP (fun li => li.ariaSelected) = 0 :=
    unselectPrevious_count s hone
  rw [select_eq]
  split
  · intro li hli hlisel
    obtain ⟨y, hy, hyl⟩ := List.mem_map.mp hli
    by_cases hid : y.elemId = target.elemId
    · rw [if_pos hid] at hyl
      obtain ⟨z, hz, hze, hzd, hzo, hzc⟩ := unselectPrevious_mem s y hy
      have hzt : z = target :=
        nodup_field_eq LiElem.elemId hids z hz target htar (by rw [← hze, hid])
      subst hzt
      constructor
      · rw [← hyl]
        show y.ariaDisabled = false
        rw [hzd, htd]
      · rw [← hyl]
        show (addClasses y.classes selectedClassesOrDefault).contains "disabled" = false
        rw [contains_false_iff]
        intro hmem
        rcases List.mem_append.mp hmem with hin | hin
        · have hyno : "disabled" ∉ y.classes := by
            rcases hzc with hc | hc
            · rw [hc]
              exact (contains_false_iff _ _).mp hg2
            · rw [hc]
              intro hmem2
              exact (contains_false_iff _ _).mp hg2 (List.mem_filter.mp hmem2).1
          exact hyno hin
        · have : "disabled" ∈ selectedClassesOrDefault := (List.mem_filter.mp hin).1
          simp [selectedClassesOrDefault] at this
    · rw [if_neg hid] at hyl
      subst hyl
      exact absurd hlisel (by simpa using List.countP_eq_zero.mp h0 y hy)
  · intro li hli hlisel
    exact absurd hlisel (by simpa using List.countP_eq_zero.mp h0 li hli)

/-- C6: on a rendered option list (positive `item_count`, enabled
options): ArrowDown with no selection selects the first option; ArrowDown
from the last option wraps to the first; ArrowUp with no selection
selects the last option; and after either arrow key, any selected element
is enabled — never the disabled "no results" placeholder. -/
theorem c6_arrow_key_navigation (s : WidgetState)
    (hids : (s.lis.map LiElem.elemId).Nodup)
    (hone : s.lis.countP (fun li => li.ariaSelected) ≤ 1)
    (hcount : 0 < s.item_count)
    (hnd : ∀ li ∈ options s, li.classes.contains "disabled" = false)
    (hsel0 : ∀ li ∈ s.lis, li.ariaSelected = true →
        li.ariaDisabled = false ∧ li.classes.contains "disabled" = false) :
    (selectedOption s = none → options s ≠ [] →
       (selectedOption (onArrowDownKeydown s)).map LiElem.elemId =
         ((options s).head?).map LiElem.elemId) ∧
    (∀ sel lastOpt, selectedOption s = some sel →
       (options s).getLast? = some lastOpt → sel.elemId = lastOpt.elemId →
       (selectedOption (onArrowDownKeydown s)).map LiElem.elemId =
         ((options s).head?).map LiElem.elemId) ∧
    (selectedOption s = none → options s ≠ [] →
       (selectedOption (onArrowUpKeydown s)).map LiElem.elemId =
         ((options s).getLast?).map LiElem.elemId) ∧
    (∀ li ∈ (onArrowDownKeydown s).lis, li.ariaSelected = true →
       li.ariaDisabled = false ∧ li.classes.contains "disabled" = false) ∧
    (∀ li ∈ (onArrowUpKeydown s).lis, li.ariaSelected = true →
       li.ariaDisabled = false ∧ li.classes.contains "disabled" = false) := by
  have hoptsub : ∀ x ∈ options s, x ∈ s.lis := fun x hx => (List.mem_filter.mp hx).1
  have hopten : ∀ x ∈ options s, x.ariaDisabled = false := fun x hx => by
    have := (List.mem_filter.mp hx).2
    simp only [Bool.and_eq_true, Bool.not_eq_true'] at this
    exact this.2
  refine ⟨?_, ?_, ?_, ?_, ?_⟩
  · intro hsel hne
    have hfirst := List.head?_eq_head hne
    have hsib : sibling s true = some ((options s).head hne) := by
      rw [sibling_none_true s hsel, hfirst]
    have hred : onArrowDownKeydown s = select s ((options s).head hne) := by
      unfold onArrowDownKeydown
      rw [hsib]
    have hmem : (options s).head hne ∈ options s := List.head_mem hne
    rw [hred, hfirst]
    exact selectedOption_select s _ hone (hoptsub _ hmem) hcount (hnd _ hmem)
  · intro sel lastOpt hsel hlast heq
    have hlmem : lastOpt ∈ options s := by
      rw [List.getLast?_eq_get?] at hlast
      exact List.get?_mem hlast
    have hne : options s ≠ [] := by
      intro habs
      rw [habs] at hlmem
      cases hlmem
    have hoptids : ((options s).map LiElem.elemId).Nodup :=
      List.Nodup.sublist ((List.filter_sublist s.lis).map LiElem.elemId) hids
    have hselmem : sel ∈ s.lis := List.mem_of_find?_eq_some hsel
    have hseleq : sel = lastOpt :=
      nodup_field_eq LiElem.elemId hids sel hselmem lastOpt (hoptsub _ hlmem) heq
    have hfind : (options s).findIdx? (fun li => li.elemId == sel.elemId) =
        some ((options s).length - 1) := by
      rw [hseleq]
      exact findIdx?_last_of_nodup (options s) hoptids lastOpt hlast
    have hidx : siblingIndex s = (((options s).length - 1 : Nat) : Int) := by
      unfold siblingIndex
      rw [hsel]
      show (match (options s).findIdx? (fun li => li.elemId == sel.elemId) with
        | some i => (i : Int)
        | none => -1) = (((options s).length - 1 : Nat) : Int)
      rw [hfind]
    have hlen : 1 ≤ (options s).length := List.length_pos.mpr hne
    have hj : jsIndex (options s) (siblingIndex s + 1) = none := by
      rw [hidx]
      unfold jsIndex
      rw [if_pos (by omega)]
      rw [List.get?_eq_none]
      omega
    have hsib : sibling s true = (options s).head? := by
      rw [sibling_eq]
      simp [hj]
    have hfirst := List.head?_eq_head hne
    have hred : onArrowDownKeydown s = select s ((options s).head hne) := by
      unfold onArrowDownKeydown
      rw [hsib, hfirst]
    have hmem : (options s).head hne ∈ options s := List.head_mem hne
    rw [hred, hfirst]
    exact selectedOption_select s _ hone (hoptsub _ hmem) hcount (hnd _ hmem)
  · intro hsel hne
    obtain ⟨lastOpt, hlast⟩ : ∃ x, (options s).getLast? = some x :=
      ⟨(options s).getLast hne, List.getLast?_eq_getLast _ hne⟩
    have hlmem : lastOpt ∈ options s := by
      rw [List.getLast?_eq_get?] at hlast
      exact List.get?_mem hlast
    have hsib : sibling s false = some lastOpt := by
      rw [sibling_none_false s hsel, hlast]
    have hred : onArrowUpKeydown s = select s lastOpt := by
      unfold onArrowUpKeydown
      rw [hsib]
    rw [hred, hlast]
    exact selectedOption_select s _ hone (hoptsub _ hlmem) hcount (hnd _ hlmem)
  · cases hsib : sibling s true with
    | none =>
      have hred : onArrowDownKeydown s = s := by
        unfold onArrowDownKeydown
        rw [hsib]
      rw [hred]
      exact hsel0
    | some target =>
      have hred : onArrowDownKeydown s = select s target := by
        unfold onArrowDownKeydown
        rw [hsib]
      rw [hred]
      have hmem := sibling_mem hsib
      exact select_enabled s target hids hone (hoptsub _ hmem) (hopten _ hmem)
        (hnd _ hmem)
  · cases hsib : sibling s false with
    | none =>
      have hred : onArrowUpKeydown s = s := by
        unfold onArrowUpKeydown
        rw [hsib]
      rw [hred]
      exact hsel0
    | some target =>
      have hred : onArrowUpKeydown s = select s target := by
        unfold onArrowUpKeydown
        rw [hsib]
      rw [hred]
      have hmem := sibling_mem hsib
      exact select_enabled s target hids hone (hoptsub _ hmem) (hopten _ hmem)
        (hnd _ hmem)

/-- Witness for C6: on the concrete two-option state with no selection,
ArrowDown selects the first option. -/
theorem c6_arrow_key_navigation_witness :
    selectedOption c5State = none ∧
    (selectedOption (onArrowDownKeydown c5State)).map LiElem.elemId =
      ((options c5State).head?).map LiElem.elemId :=
  ⟨by decide,
   (c6_arrow_key_navigation c5State (by decide) (by decide) (by decide)
      (by decide) (by decide)).1 (by decide) (by decide)⟩

/-! ## `performFetch` (src/unnamed/part_000) satisfies the no-stale
discipline: every applied response belongs to the most recently started
request. -/

/-- Invariant of the `performFetch` lifecycle: request keys are distinct
and bounded by the counter; any request still waiting (for headers or
body) is the one the abort controller tracks and the latest started; and
every applied response was applied while its request was the latest. -/
def NetInv (st : NetTraceState) : Prop :=
  (st.phases.map Prod.fst).Nodup ∧
  (∀ p ∈ st.phases, p.1 < st.nextReq) ∧
  (∀ p ∈ st.phases, (p.2 = ReqPhase.headersWait ∨ p.2 = ReqPhase.bodyWait) →
      st.controller = some p.1 ∧ p.1 + 1 = st.nextReq) ∧
  (∀ p ∈ st.applied, p.1 + 1 = p.2)

/-- Keys are untouched by `setPhase`. -/
theorem setPhase_map_fst (ps : List (Nat × ReqPhase)) (j : Nat) (ph : ReqPhase) :
    (setPhase ps j ph).map Prod.fst = ps.map Prod.fst := by
  unfold setPhase
  rw [List.map_map]
  refine List.map_congr_left (fun p _ => ?_)
  by_cases hp : p.1 = j
  · simp [hp]
  · simp [hp]

/-- Membership through `setPhase`. -/
theorem mem_setPhase {ps : List (Nat × ReqPhase)} {j : Nat} {ph : ReqPhase}
    {p' : Nat × ReqPhase} :
    p' ∈ setPhase ps j ph ↔ ∃ p ∈ ps, p' = if p.1 == j then (p.1, ph) else p := by
  unfold setPhase
  rw [List.mem_map]
  constructor
  · rintro ⟨p, hp, rfl⟩
    exact ⟨p, hp, rfl⟩
  · rintro ⟨p, hp, rfl⟩
    exact ⟨p, hp, rfl⟩

/-- A `getPhase` hit names a member. -/
theorem getPhase_mem {ps : List (Nat × ReqPhase)} {j : Nat} {ph : ReqPhase}
    (h : getPhase ps j = some ph) : (j, ph) ∈ ps := by
  unfold getPhase at h
  obtain ⟨p, hp, rfl⟩ := Option.map_eq_some'.mp h
  have h1 : p.1 = j := by simpa using List.find?_some hp
  have h2 := List.mem_of_find?_eq_some hp
  obtain ⟨a, b⟩ := p
  simp only at h1
  subst h1
  exact h2

/-- One `performFetch` scheduler step preserves the invariant. -/
theorem netStepPF_inv {st : NetTraceState} (hinv : NetInv st) (e : NetStep) :
    NetInv (netStepPF st e) := by
  obtain ⟨ctrl, nr, ps, ap⟩ := st
  obtain ⟨hnd, hbound, hact, happ⟩ := hinv
  simp only at hnd hbound hact happ
  cases e with
  | start =>
    cases ctrl with
    | some i =>
      show NetInv
        { controller := some nr, nextReq := nr + 1,
          phases := setPhase ps i ReqPhase.aborted ++ [(nr, ReqPhase.headersWait)],
          applied := ap }
      refine ⟨?_, ?_, ?_, happ⟩
      · show ((setPhase ps i ReqPhase.aborted ++ [(nr, ReqPhase.headersWait)]).map Prod.fst).Nodup
        rw [List.map_append, setPhase_map_fst]
        simp only [List.map_cons, List.map_nil]
        rw [List.nodup_append]
        refine ⟨hnd, List.nodup_singleton _, ?_⟩
        intro a ha hb
        simp only [List.mem_singleton] at hb
        subst hb
        obtain ⟨p, hp, hpa⟩ := List.mem_map.mp ha
        exact absurd (hpa ▸ hbound p hp) (lt_irrefl _)
      · intro p hp
        show p.1 < nr + 1
        rcases List.mem_append.mp hp with hin | hin
        · obtain ⟨p0, hp0, hpe⟩ := mem_setPhase.mp hin
          have hb0 := hbound p0 hp0
          by_cases h0 : p0.1 = i
          · rw [if_pos (by simpa using h0)] at hpe
            subst hpe
            simpa using Nat.lt_succ_of_lt hb0
          · rw [if_neg (by simpa using h0)] at hpe
            subst hpe
            exact Nat.lt_succ_of_lt hb0
        · simp only [List.mem_singleton] at hin
          subst hin
          exact Nat.lt_succ_self nr
      · intro p hp hw
        rcases List.mem_append.mp hp with hin | hin
        · obtain ⟨p0, hp0, hpe⟩ := mem_setPhase.mp hin
          by_cases h0 : p0.1 = i
          · rw [if_pos (by simpa using h0)] at hpe
            subst hpe
            simp only at hw
            rcases hw with hw | hw <;> cases hw
          · rw [if_neg (by simpa using h0)] at hpe
            rw [hpe] at hw
            have := (hact p0 hp0 hw).1
            exact absurd (Option.some_inj.mp this).symm h0
        · simp only [List.mem_singleton] at hin
          subst hin
          exact ⟨rfl, rfl⟩
    | none =>
      show NetInv
        { controller := some nr, nextReq := nr + 1,
          phases := ps ++ [(nr, ReqPhase.headersWait)], applied := ap }
      refine ⟨?_, ?_, ?_, happ⟩
      · show ((ps ++ [(nr, ReqPhase.headersWait)]).map Prod.fst).Nodup
        rw [List.map_append]
        simp only [List.map_cons, List.map_nil]
        rw [List.nodup_append]
        refine ⟨hnd, List.nodup_singleton _, ?_⟩
        intro a ha hb
        simp only [List.mem_singleton] at hb
        subst hb
        obtain ⟨p, hp, hpa⟩ := List.mem_map.mp ha
        exact absurd (hpa ▸ hbound p hp) (lt_irrefl _)
      · intro p hp
        show p.1 < nr + 1
        rcases List.mem_append.mp hp with hin | hin
        · exact Nat.lt_succ_of_lt (hbound p hin)
        · simp only [List.mem_singleton] at hin
          subst hin
          exact Nat.lt_succ_self nr
      · intro p hp hw
        rcases List.mem_append.mp hp with hin | hin
        · have := (hact p hin hw).1
          cases this
        · simp only [List.mem_singleton] at hin
          subst hin
          exact ⟨rfl, rfl⟩
  | headers j =>
    by_cases hg : getPhase ps j = some ReqPhase.headersWait
    · have hstep : netStepPF ⟨ctrl, nr, ps, ap⟩ (NetStep.headers j) =
          { controller := ctrl, nextReq := nr,
            phases := setPhase ps j ReqPhase.bodyWait, applied := ap } := by
        show (if getPhase ps j = some ReqPhase.headersWait then _ else _) = _
        rw [if_pos hg]
      rw [hstep]
      have hjmem := getPhase_mem hg
      refine ⟨by rw [setPhase_map_fst]; exact hnd, ?_, ?_, happ⟩
      · intro p hp
        show p.1 < nr
        obtain ⟨p0, hp0, hpe⟩ := mem_setPhase.mp hp
        have hb0 := hbound p0 hp0
        by_cases h0 : p0.1 = j
        · rw [if_pos (by simpa using h0)] at hpe
          subst hpe
          simpa using hb0
        · rw [if_neg (by simpa using h0)] at hpe
          subst hpe
          exact hb0
      · intro p hp hw
        show ctrl = some p.1 ∧ p.1 + 1 = nr
        obtain ⟨p0, hp0, hpe⟩ := mem_setPhase.mp hp
        by_cases h0 : p0.1 = j
        · rw [if_pos (by simpa using h0)] at hpe
          subst hpe
          simp only [h0]
          exact hact (j, ReqPhase.headersWait) hjmem (Or.inl rfl)
        · rw [if_neg (by simpa using h0)] at hpe
          rw [hpe] at hw ⊢
          exact hact p0 hp0 hw
    · have hstep : netStepPF ⟨ctrl, nr, ps, ap⟩ (NetStep.headers j) =
          ⟨ctrl, nr, ps, ap⟩ := by
        show (if getPhase ps j = some ReqPhase.headersWait then _ else _) = _
        rw [if_neg hg]
      rw [hstep]
      exact ⟨hnd, hbound, hact, happ⟩
  | body j =>
    by_cases hg : getPhase ps j = some ReqPhase.bodyWait
    · have hstep : netStepPF ⟨ctrl, nr, ps, ap⟩ (NetStep.body j) =
          { controller := none, nextReq := nr,
            phases := setPhase ps j ReqPhase.done, applied := ap ++ [(j, nr)] } := by
        show (if getPhase ps j = some ReqPhase.bodyWait then _ else _) = _
        rw [if_pos hg]
      rw [hstep]
      have hjmem := getPhase_mem hg
      have hj := hact (j, ReqPhase.bodyWait) hjmem (Or.inr rfl)
      refine ⟨by rw [setPhase_map_fst]; exact hnd, ?_, ?_, ?_⟩
      · intro p hp
        show p.1 < nr
        obtain ⟨p0, hp0, hpe⟩ := mem_setPhase.mp hp
        have hb0 := hbound p0 hp0
        by_cases h0 : p0.1 = j
        · rw [if_pos (by simpa using h0)] at hpe
          subst hpe
          simpa using hb0
        · rw [if_neg (by simpa using h0)] at hpe
          subst hpe
          exact hb0
      · intro p hp hw
        obtain ⟨p0, hp0, hpe⟩ := mem_setPhase.mp hp
        by_cases h0 : p0.1 = j
        · rw [if_pos (by simpa using h0)] at hpe
          subst hpe
          simp only at hw
          rcases hw with hw | hw <;> cases hw
        · rw [if_neg (by simpa using h0)] at hpe
          rw [hpe] at hw
          have h1 := (hact p0 hp0 hw).1
          have h2 := hj.1
          rw [h1] at h2
          exact absurd (Option.some_inj.mp h2) h0
      · intro p hp
        rcases List.mem_append.mp hp with hin | hin
        · exact happ p hin
        · simp only [List.mem_singleton] at hin
          subst hin
          exact hj.2
    · have hstep : netStepPF ⟨ctrl, nr, ps, ap⟩ (NetStep.body j) =
          ⟨ctrl, nr, ps, ap⟩ := by
        show (if getPhase ps j = some ReqPhase.bodyWait then _ else _) = _
        rw [if_neg hg]
      rw [hstep]
      exact ⟨hnd, hbound, hact, happ⟩

/-- In `src/unnamed/part_000`'s `performFetch`, under ANY interleaving of
overlapping requests, every response that reaches `replaceResults`
belongs to the most recently started request: a superseded request is
aborted while its abort controller is still tracked, so its result is
never applied (contrast with `c8_stale_response_applied`). -/
theorem performFetch_applies_only_latest (steps : List NetStep) :
    ∀ p ∈ (runTracePF steps).applied, p.1 + 1 = p.2 := by
  have hrun : ∀ (st : NetTraceState), NetInv st →
      NetInv (steps.foldl netStepPF st) := by
    induction steps with
    | nil => exact fun st h => h
    | cons e t ih =>
      intro st h
      rw [List.foldl_cons]
      exact ih _ (netStepPF_inv h e)
  have hinit : NetInv initNetState := by
    refine ⟨List.nodup_nil, ?_, ?_, ?_⟩ <;> intro p hp <;> cases hp
  exact (hrun initNetState hinit).2.2.2

/-! ## Claim C4 -/

/-- What an occurrence at `pos` guarantees about the rendered highlight:
the three slices reassemble the item, the prefix has length `pos`, the
highlighted span has exactly the query's length and is the query up to
case, and no earlier position matches. -/
theorem renderedContent_spec (q it : List Char) (pos : Nat)
    (h : indexOfSub (lowerL it) (lowerL q) = some pos) :
    renderedContent q it = some (LiContent.highlighted (it.take pos)
      ((it.drop pos).take q.length) (it.drop (pos + q.length))) ∧
    (it.take pos).length = pos ∧
    ((it.drop pos).take q.length).length = q.length ∧
    lowerL ((it.drop pos).take q.length) = lowerL q ∧
    (it.take pos) ++ ((it.drop pos).take q.length) ++ (it.drop (pos + q.length)) = it ∧
    ∀ i, i < pos → ((lowerL it).drop i).take (lowerL q).length ≠ lowerL q := by
  obtain ⟨hle, hat, hmin⟩ := indexOfSub_some h
  have hlit : (lowerL it).length = it.length := by simp [lowerL]
  have hlq : (lowerL q).length = q.length := by simp [lowerL]
  rw [hlit, hlq] at hle
  refine ⟨?_, ?_, ?_, ?_, ?_, hmin⟩
  · unfold renderedContent
    rw [h]
    rfl
  · rw [List.length_take]
    exact min_eq_left (by omega)
  · rw [List.length_take, List.length_drop]
    exact min_eq_left (by omega)
  · have hstep : lowerL ((it.drop pos).take q.length) =
        ((lowerL it).drop pos).take q.length := by
      unfold lowerL
      rw [List.map_take, List.map_drop]
    rw [hstep, ← hlq]
    exact hat
  · rw [List.append_assoc]
    have hdd : it.drop (pos + q.length) = (it.drop pos).drop q.length := by
      rw [List.drop_drop, Nat.add_comm]
    rw [hdd, List.take_append_drop, List.take_append_drop]

/-- `contains` on lists of strings-as-char-lists is membership. -/
theorem lcontains_iff {l : List (List Char)} {x : List Char} :
    l.contains x = true ↔ x ∈ l := by simp

/-- `setChildren` keeps any field other than the children. -/
theorem setChildren_map_field {β : Type} (f : LiElem → β)
    (hf : ∀ (li : LiElem) (c : LiContent), f { li with children := c } = f li)
    (l : List LiElem) (a : Nat) (c : LiContent) :
    (setChildren l a c).map f = l.map f := by
  unfold setChildren
  rw [List.map_map]
  refine List.map_congr_left (fun li _ => ?_)
  by_cases hid : li.elemId = a
  · simp only [Function.comp_apply, if_pos hid, hf]
  · simp only [Function.comp_apply, if_neg hid]

/-- Inserting an element with a fresh field image keeps the mapped list
duplicate-free. -/
theorem nodup_map_insertAfter {β : Type} (f : LiElem → β) (l : List LiElem)
    (anchor : Option Nat) (x : LiElem)
    (hnd : (l.map f).Nodup) (hx : f x ∉ l.map f) :
    ((insertAfter l anchor x).map f).Nodup := by
  cases anchor with
  | none =>
    simp only [insertAfter, List.map_cons, List.nodup_cons]
    exact ⟨hx, hnd⟩
  | some a =>
    show ((insertAfterId l a x).map f).Nodup
    induction l with
    | nil =>
      simp [insertAfterId]
    | cons y t ih =>
      rw [insertAfterId]
      simp only [List.map_cons, List.nodup_cons] at hnd
      simp only [List.map_cons, List.mem_cons, not_or] at hx
      by_cases hy : y.elemId = a
      · rw [if_pos hy]
        simp only [List.map_cons, List.nodup_cons, List.mem_cons, not_or]
        refine ⟨⟨fun habs => hx.1 habs.symm, hnd.1⟩, ?_, hnd.2⟩
        exact fun habs => hx.2 habs
      · rw [if_neg hy]
        simp only [List.map_cons, List.nodup_cons]
        have hmemtransfer : ∀ b, b ∈ (insertAfterId t a x).map f →
            b ∈ t.map f ∨ b = f x := by
          intro b hb
          obtain ⟨z, hz, hzb⟩ := List.mem_map.mp hb
          rcases mem_insertAfterId.mp hz with hz' | rfl
          · exact Or.inl (hzb ▸ List.mem_map_of_mem f hz')
          · exact Or.inr hzb.symm
        refine ⟨?_, ih hnd.2 hx.2⟩
        intro habs
        rcases hmemtransfer _ habs with hin | hin
        · exact hnd.1 hin
        · exact hx.1 hin.symm

/-- The `existing_lis` snapshot reduced to the data `updateResults` reads
from it. -/
def updSnapshot (s : WidgetState) : List (Nat × List Char) :=
  (options s).map (fun li => (li.elemId, li.value))

/-- `(l ++ [a]).contains x` decomposes. -/
theorem contains_snoc {l : List (List Char)} {a x : List Char} :
    (l ++ [a]).contains x = true ↔ l.contains x = true ∨ x = a := by
  rw [lcontains_iff, List.mem_append, List.mem_singleton, lcontains_iff]

/-- `contains` is false on non-members. -/
theorem contains_false_of {l : List (List Char)} {x : List Char} (h : x ∉ l) :
    l.contains x = false := by
  cases hc : l.contains x
  · rfl
  · exact absurd (lcontains_iff.mp hc) h

/-- `hideSorryMessage` is the identity when no placeholder is present.
The hypothesis is stated on the container the state holds. -/
theorem hideSorryMessage_lis_none (w : WidgetState)
    (hfind : w.lis.find? isSorryLi = none) : hideSorryMessage w = w := by
  unfold hideSorryMessage
  rw [hfind]

/-- Invariant maintained along the `updateResults` loop over a clean
container: identities and values stay distinct and bounded, previously
existing elements persist with their identity and value, every element
whose value has been shown carries the current highlight content, every
element the loop created has been shown, and every element either stems
from the original container or was shown by this loop. -/
structure RenderInv (s : WidgetState) (q : List Char) (acc : UpdAcc) : Prop where
  idsNodup : (acc.lis.map LiElem.elemId).Nodup
  idsBound : ∀ li ∈ acc.lis, li.elemId < acc.nextId
  nextGe : s.nextId ≤ acc.nextId
  valsNodup : (acc.lis.map LiElem.value).Nodup
  clean : ∀ li ∈ acc.lis, li.isOption = true ∧ li.ariaDisabled = false
  persist : ∀ pr ∈ updSnapshot s, ∃ li ∈ acc.lis, li.elemId = pr.1 ∧ li.value = pr.2
  content : ∀ li ∈ acc.lis, acc.shown.contains li.value = true →
      renderedContent q li.value = some li.children
  freshShown : ∀ li ∈ acc.lis, (updSnapshot s).any (fun p => p.1 == li.elemId) = false →
      acc.shown.contains li.value = true
  shownLi : ∀ it, acc.shown.contains it = true → ∃ li ∈ acc.lis, li.value = it
  origin : ∀ li ∈ acc.lis, (∃ z ∈ s.lis, z.value = li.value) ∨
      acc.shown.contains li.value = true

/-- One loop iteration on a not-yet-shown item maintains `RenderInv`. -/
theorem processItem_renderInv (s : WidgetState) (q it : List Char) (acc : UpdAcc)
    (hclean_s : ∀ li ∈ s.lis, li.isOption = true ∧ li.ariaDisabled = false)
    (hinv : RenderInv s q acc)
    (hnew : acc.shown.contains it = false) :
    RenderInv s q (processItem q (updSnapshot s) acc it) := by
  cases hrc : renderedContent q it with
  | none =>
    rw [processItem_none _ _ (by unfold renders; rw [hrc]; rfl)]
    exact hinv
  | some c =>
    cases hf : (updSnapshot s).find? (fun p => p.2 == it) with
    | some p =>
      have hstep : processItem q (updSnapshot s) acc it =
          { acc with
            lis := setChildren acc.lis p.1 c
            last_li := some p.1
            count := acc.count + 1
            shown := acc.shown ++ [it] } := by
        unfold processItem
        rw [hrc, hf]
      rw [hstep]
      have hppred : p.2 = it := by simpa using List.find?_some hf
      have hpmem : p ∈ updSnapshot s := List.mem_of_find?_eq_some hf
      obtain ⟨li1, hli1, hli1id, hli1v⟩ := hinv.persist p hpmem
      rw [hppred] at hli1v
      have hmemchar : ∀ x ∈ setChildren acc.lis p.1 c, ∃ y ∈ acc.lis,
          x = if y.elemId = p.1 then { y with children := c } else y := by
        intro x hx
        obtain ⟨y, hy, hxy⟩ := List.mem_map.mp hx
        exact ⟨y, hy, hxy.symm⟩
      have hfields : ∀ x ∈ setChildren acc.lis p.1 c, ∃ y ∈ acc.lis,
          x.elemId = y.elemId ∧ x.value = y.value ∧ x.isOption = y.isOption ∧
          x.ariaDisabled = y.ariaDisabled := by
        intro x hx
        obtain ⟨y, hy, hxy⟩ := hmemchar x hx
        by_cases hid : y.elemId = p.1
        · rw [if_pos hid] at hxy
          exact ⟨y, hy, by rw [hxy], by rw [hxy], by rw [hxy], by rw [hxy]⟩
        · rw [if_neg hid] at hxy
          exact ⟨y, hy, by rw [hxy], by rw [hxy], by rw [hxy], by rw [hxy]⟩
      refine ⟨?_, ?_, ?_, ?_, ?_, ?_, ?_, ?_, ?_, ?_⟩
      · show ((setChildren acc.lis p.1 c).map LiElem.elemId).Nodup
        rw [setChildren_map_field LiElem.elemId (fun li c => rfl)]
        exact hinv.idsNodup
      · intro x hx
        obtain ⟨y, hy, he, _, _, _⟩ := hfields x hx
        show x.elemId < acc.nextId
        rw [he]
        exact hinv.idsBound y hy
      · exact hinv.nextGe
      · show ((setChildren acc.lis p.1 c).map LiElem.value).Nodup
        rw [setChildren_map_field LiElem.value (fun li c => rfl)]
        exact hinv.valsNodup
      · intro x hx
        obtain ⟨y, hy, _, _, ho, hd⟩ := hfields x hx
        rw [ho, hd]
        exact hinv.clean y hy
      · intro pr hpr
        obtain ⟨y, hy, hye, hyv⟩ := hinv.persist pr hpr
        refine ⟨(if y.elemId = p.1 then { y with children := c } else y),
          List.mem_map_of_mem _ hy, ?_, ?_⟩
        · by_cases hid : y.elemId = p.1
          · rw [if_pos hid]; exact hye
          · rw [if_neg hid]; exact hye
        · by_cases hid : y.elemId = p.1
          · rw [if_pos hid]; exact hyv
          · rw [if_neg hid]; exact hyv
      · intro x hx hcont
        obtain ⟨y, hy, hxy⟩ := hmemchar x hx
        by_cases hid : y.elemId = p.1
        · rw [if_pos hid] at hxy
          have hyv : y.value = it := by
            have heq1 : y = li1 :=
              nodup_field_eq LiElem.elemId hinv.idsNodup y hy li1 hli1 (by rw [hid, hli1id])
            rw [heq1, hli1v]
          rw [hxy]
          show renderedContent q y.value = some c
          rw [hyv, hrc]
        · rw [if_neg hid] at hxy
          rw [hxy] at hcont ⊢
          rcases contains_snoc.mp hcont with hold | heq
          · exact hinv.content y hy hold
          · exfalso
            have heq1 : y = li1 :=
              nodup_field_eq LiElem.value hinv.valsNodup y hy li1 hli1 (by rw [heq, hli1v])
            exact hid (by rw [heq1, hli1id])
      · intro x hx hany
        obtain ⟨y, hy, he, hv, _, _⟩ := hfields x hx
        rw [hv]
        have : (updSnapshot s).any (fun p => p.1 == y.elemId) = false := by
          rw [← he]; exact hany
        exact contains_snoc.mpr (Or.inl (hinv.freshShown y hy this))
      · intro z hz
        rcases contains_snoc.mp hz with hold | rfl
        · obtain ⟨y, hy, hyv⟩ := hinv.shownLi z hold
          refine ⟨(if y.elemId = p.1 then { y with children := c } else y),
            List.mem_map_of_mem _ hy, ?_⟩
          by_cases hid : y.elemId = p.1
          · rw [if_pos hid]; exact hyv
          · rw [if_neg hid]; exact hyv
        · refine ⟨(if li1.elemId = p.1 then { li1 with children := c } else li1),
            List.mem_map_of_mem _ hli1, ?_⟩
          by_cases hid : li1.elemId = p.1
          · rw [if_pos hid]; exact hli1v
          · rw [if_neg hid]; exact hli1v
      · intro x hx
        obtain ⟨y, hy, _, hv, _, _⟩ := hfields x hx
        rw [hv]
        rcases hinv.origin y hy with hor | hor
        · exact Or.inl hor
        · exact Or.inr (contains_snoc.mpr (Or.inl hor))
    | none =>
      have hstep : processItem q (updSnapshot s) acc it =
          { lis := insertAfter acc.lis acc.last_li
              { elemId := acc.nextId, value := it, isOption := true,
                ariaDisabled := false, ariaSelected := false,
                classes := ["list-group-item"], children := c }
            last_li := some acc.nextId
            nextId := acc.nextId + 1
            count := acc.count + 1
            shown := acc.shown ++ [it] } := by
        unfold processItem
        rw [hrc, hf]
      rw [hstep]
      have hnone := List.find?_eq_none.mp hf
      have hno_acc : ∀ y ∈ acc.lis, y.value ≠ it := by
        intro y hy heq
        rcases hinv.origin y hy with ⟨z, hz, hzv⟩ | hor
        · have hzo : z ∈ options s :=
            List.mem_filter.mpr ⟨hz, by simp [(hclean_s z hz).1, (hclean_s z hz).2]⟩
          have hpr : ((z.elemId, z.value) : Nat × List Char) ∈ updSnapshot s :=
            List.mem_map_of_mem _ hzo
          exact absurd (by simp [hzv, heq] : ((z.elemId, z.value).2 == it) = true)
            (hnone _ hpr)
        · rw [heq] at hor
          rw [hor] at hnew
          cases hnew
      set li0 : LiElem :=
        { elemId := acc.nextId, value := it, isOption := true,
          ariaDisabled := false, ariaSelected := false,
          classes := ["list-group-item"], children := c } with hli0
      refine ⟨?_, ?_, ?_, ?_, ?_, ?_, ?_, ?_, ?_, ?_⟩
      · show ((insertAfter acc.lis acc.last_li li0).map LiElem.elemId).Nodup
        refine nodup_map_insertAfter LiElem.elemId _ _ _ hinv.idsNodup ?_
        intro habs
        obtain ⟨y, hy, hye⟩ := List.mem_map.mp habs
        exact absurd (hye ▸ hinv.idsBound y hy) (lt_irrefl _)
      · intro x hx
        show x.elemId < acc.nextId + 1
        rcases mem_insertAfter.mp hx with hold | rfl
        · exact Nat.lt_succ_of_lt (hinv.idsBound x hold)
        · exact Nat.lt_succ_self _
      · exact Nat.le_succ_of_le hinv.nextGe
      · show ((insertAfter acc.lis acc.last_li li0).map LiElem.value).Nodup
        refine nodup_map_insertAfter LiElem.value _ _ _ hinv.valsNodup ?_
        intro habs
        obtain ⟨y, hy, hye⟩ := List.mem_map.mp habs
        exact hno_acc y hy hye
      · intro x hx
        rcases mem_insertAfter.mp hx with hold | rfl
        · exact hinv.clean x hold
        · exact ⟨rfl, rfl⟩
      · intro pr hpr
        obtain ⟨y, hy, hye, hyv⟩ := hinv.persist pr hpr
        exact ⟨y, mem_insertAfter.mpr (Or.inl hy), hye, hyv⟩
      · intro x hx hcont
        rcases mem_insertAfter.mp hx with hold | rfl
        · rcases contains_snoc.mp hcont with holdc | heq
          · exact hinv.content x hold holdc
          · exact absurd heq (hno_acc x hold)
        · show renderedContent q it = some c
          exact hrc
      · intro x hx hany
        rcases mem_insertAfter.mp hx with hold | rfl
        · exact contains_snoc.mpr (Or.inl (hinv.freshShown x hold hany))
        · exact contains_snoc.mpr (Or.inr rfl)
      · intro z hz
        rcases contains_snoc.mp hz with hold | rfl
        · obtain ⟨y, hy, hyv⟩ := hinv.shownLi z hold
          exact ⟨y, mem_insertAfter.mpr (Or.inl hy), hyv⟩
        · exact ⟨li0, mem_insertAfter.mpr (Or.inr rfl), rfl⟩
      · intro x hx
        rcases mem_insertAfter.mp hx with hold | rfl
        · rcases hinv.origin x hold with hor | hor
          · exact Or.inl hor
          · exact Or.inr (contains_snoc.mpr (Or.inl hor))
        · exact Or.inr (contains_snoc.mpr (Or.inr rfl))

/-- The whole loop maintains `RenderInv` for duplicate-free item lists
none of which were already shown. -/
theorem foldl_renderInv (s : WidgetState) (q : List Char)
    (hclean_s : ∀ li ∈ s.lis, li.isOption = true ∧ li.ariaDisabled = false) :
    ∀ (items : List (List Char)), items.Nodup →
    ∀ (acc : UpdAcc), RenderInv s q acc →
    (∀ x ∈ items, acc.shown.contains x = false) →
    RenderInv s q (items.foldl (processItem q (updSnapshot s)) acc) := by
  intro items
  induction items with
  | nil => exact fun _ acc hinv _ => hinv
  | cons it t ih =>
    intro hnd acc hinv hns
    rw [List.foldl_cons]
    rw [List.nodup_cons] at hnd
    refine ih hnd.2 _ (processItem_renderInv s q it acc hclean_s hinv
      (hns it (List.mem_cons_self it t))) ?_
    intro x hx
    rw [processItem_shown]
    refine contains_false_of ?_
    intro hmem
    rcases List.mem_append.mp hmem with hin | hin
    · have h1 := hns x (List.mem_cons_of_mem it hx)
      rw [lcontains_iff.mpr hin] at h1
      cases h1
    · by_cases hr : renders q it
      · rw [if_pos hr] at hin
        rw [List.mem_singleton] at hin
        exact hnd.1 (hin ▸ hx)
      · rw [if_neg hr] at hin
        cases hin

/-- If the needle occurs anywhere, `indexOf` does not miss it. -/
theorem indexOfSub_none {hay needle : List Char}
    (h : indexOfSub hay needle = none) :
    ∀ i, (hay.drop i).take needle.length ≠ needle := by
  induction hay with
  | nil =>
    intro i habs
    rw [indexOfSub] at h
    simp only [List.drop_nil, List.take_nil] at habs
    rw [List.take_nil] at h
    rw [if_pos habs] at h
    cases h
  | cons x t ihx =>
    intro i habs
    rw [indexOfSub] at h
    by_cases hg : (x :: t).take needle.length = needle
    · rw [if_pos hg] at h
      cases h
    · rw [if_neg hg] at h
      cases i with
      | zero =>
        rw [List.drop_zero] at habs
        exact hg habs
      | succ i' =>
        cases hrec : indexOfSub t needle with
        | some p =>
          rw [hrec] at h
          cases h
        | none =>
          exact ihx hrec i' (by simpa using habs)

/-- C4: over a clean container and duplicate-free lists, `updateResults`
renders an item if and only if the lowercased item contains the
lowercased query as a contiguous substring (non-matching items are
dropped, and previously rendered ones removed); every rendered element's
children are the current highlight structure; and a match at position
`pos` highlights exactly `query.length` consecutive characters of the
item starting at the first case-insensitive match position, with the
untouched prefix and suffix around it. -/
theorem c4_render_decision_and_highlight (s : WidgetState)
    (items : List (List Char)) (q : List Char)
    (hids : (s.lis.map LiElem.elemId).Nodup)
    (hbnd : ∀ li ∈ s.lis, li.elemId < s.nextId)
    (hvals : (s.lis.map LiElem.value).Nodup)
    (hclean : ∀ li ∈ s.lis, li.isOption = true ∧ li.ariaDisabled = false ∧
        isSorryLi li = false)
    (hitems : items.Nodup) :
    (∀ it ∈ items,
       ((∃ li ∈ (updateResults s items q).lis, li.isOption = true ∧ li.value = it) ↔
         renders q it = true)) ∧
    (∀ li ∈ (updateResults s items q).lis, isSorryLi li = false →
       renderedContent q li.value = some li.children) ∧
    (∀ it pos, indexOfSub (lowerL it) (lowerL q) = some pos →
       renderedContent q it = some (LiContent.highlighted (it.take pos)
         ((it.drop pos).take q.length) (it.drop (pos + q.length))) ∧
       (it.take pos).length = pos ∧
       ((it.drop pos).take q.length).length = q.length ∧
       lowerL ((it.drop pos).take q.length) = lowerL q ∧
       (it.take pos) ++ ((it.drop pos).take q.length) ++ (it.drop (pos + q.length)) = it ∧
       (∀ i, i < pos → ((lowerL it).drop i).take (lowerL q).length ≠ lowerL q)) ∧
    (∀ it, renders q it = true ↔
       ∃ pos, ((lowerL it).drop pos).take (lowerL q).length = lowerL q) := by
  have hclean2 : ∀ li ∈ s.lis, li.isOption = true ∧ li.ariaDisabled = false :=
    fun li hli => ⟨(hclean li hli).1, (hclean li hli).2.1⟩
  have hopts : options s = s.lis :=
    List.filter_eq_self.mpr (fun li hli => by simp [(hclean2 li hli).1, (hclean2 li hli).2])
  have hinv0 : RenderInv s q
      { lis := s.lis, last_li := none, nextId := s.nextId, count := 0, shown := [] } := by
    refine ⟨hids, hbnd, le_refl _, hvals, hclean2, ?_, ?_, ?_, ?_, ?_⟩
    · intro pr hpr
      obtain ⟨li, hli, hpre⟩ := List.mem_map.mp hpr
      exact ⟨li, hopts ▸ hli, by rw [← hpre], by rw [← hpre]⟩
    · intro li _ hc
      cases hc
    · intro li hli hany
      exfalso
      have hmem : ((li.elemId, li.value) : Nat × List Char) ∈ updSnapshot s :=
        List.mem_map_of_mem _ (hopts ▸ hli)
      have hthis : (updSnapshot s).any (fun p => p.1 == li.elemId) = true :=
        List.any_eq_true.mpr ⟨(li.elemId, li.value), hmem, beq_self_eq_true _⟩
      rw [hthis] at hany
      cases hany
    · intro it hc
      cases hc
    · intro li hli
      exact Or.inl ⟨li, hli, rfl⟩
  have hfold := foldl_renderInv s q hclean2 items hitems
    { lis := s.lis, last_li := none, nextId := s.nextId, count := 0, shown := [] }
    hinv0 (fun x _ => rfl)
  have hsnap : (options s).map (fun li => (li.elemId, li.value)) = updSnapshot s := rfl
  have hshown : (items.foldl (processItem q (updSnapshot s))
      { lis := s.lis, last_li := none, nextId := s.nextId, count := 0, shown := [] }).shown =
      items.filter (renders q) := by
    rw [foldl_shown]
    rfl
  have hnoplaceholder : ∀ li ∈ (items.foldl (processItem q (updSnapshot s))
      { lis := s.lis, last_li := none, nextId := s.nextId, count := 0, shown := [] }).lis,
      isSorryLi li = false :=
    foldl_keeps_clean (fun li hli => (hclean li hli).2.2)
  -- name the loop result and the removal-filtered container
  set F := items.foldl (processItem q (updSnapshot s))
      { lis := s.lis, last_li := none, nextId := s.nextId, count := 0, shown := [] } with hF
  set lis1 := F.lis.filter (fun li =>
    !(((updSnapshot s).any (fun p => p.1 == li.elemId)) && !(F.shown.contains li.value)))
    with hlis1
  have hupd : updateResults s items q =
      (if F.count = 0
        then showSorryMessage { s with lis := lis1, nextId := F.nextId, item_count := F.count } q
        else hideSorryMessage { s with lis := lis1, nextId := F.nextId, item_count := F.count }) := by
    simp only [updateResults]
    rw [hsnap]
  have hkept_shown : ∀ li ∈ lis1, F.shown.contains li.value = true := by
    intro li hli
    have hmem := List.mem_filter.mp hli
    by_cases hany : (updSnapshot s).any (fun p => p.1 == li.elemId) = true
    · have := hmem.2
      rw [hany] at this
      cases hcont : F.shown.contains li.value
      · rw [hcont] at this
        simp at this
      · rfl
    · refine hfold.freshShown li hmem.1 ?_
      cases h : (updSnapshot s).any (fun p => p.1 == li.elemId)
      · rfl
      · exact absurd h hany
  have hkept_mem : ∀ li ∈ F.lis, F.shown.contains li.value = true → li ∈ lis1 := by
    intro li hli hcont
    refine List.mem_filter.mpr ⟨hli, ?_⟩
    rw [hcont]
    simp
  have hfind1 : lis1.find? isSorryLi = none := by
    refine List.find?_eq_none.mpr (fun x hx => ?_)
    rw [hnoplaceholder x (List.mem_filter.mp hx).1]
    simp
  have hres_lis : ∀ li, li ∈ (updateResults s items q).lis ↔
      (li ∈ lis1 ∨ (F.count = 0 ∧ li = sorryLiOf F.nextId q)) := by
    intro li
    rw [hupd]
    by_cases hc : F.count = 0
    · rw [if_pos hc]
      unfold showSorryMessage
      show li ∈ lis1 ++ [sorryLiOf F.nextId q] ↔ _
      rw [List.mem_append, List.mem_singleton]
      constructor
      · rintro (h | h)
        · exact Or.inl h
        · exact Or.inr ⟨hc, h⟩
      · rintro (h | h)
        · exact Or.inl h
        · exact Or.inr h.2
    · rw [if_neg hc]
      rw [hideSorryMessage_lis_none _ hfind1]
      show li ∈ lis1 ↔ _
      constructor
      · exact fun h => Or.inl h
      · rintro (h | h)
        · exact h
        · exact absurd h.1 hc
  refine ⟨?_, ?_, fun it pos h => renderedContent_spec q it pos h, ?_⟩
  · intro it hit
    constructor
    · rintro ⟨li, hli, hopt, hval⟩
      rcases (hres_lis li).mp hli with hin | ⟨_, hplaceholder⟩
      · have hcont := hkept_shown li hin
        rw [hval] at hcont
        rw [hshown] at hcont
        exact (List.mem_filter.mp (lcontains_iff.mp hcont)).2
      · rw [hplaceholder] at hopt
        cases hopt
    · intro hr
      have hffilter : it ∈ items.filter (renders q) := List.mem_filter.mpr ⟨hit, hr⟩
      have hcont : F.shown.contains it = true := by
        rw [hshown]
        exact lcontains_iff.mpr hffilter
      obtain ⟨li, hli, hval⟩ := hfold.shownLi it hcont
      refine ⟨li, (hres_lis li).mpr (Or.inl (hkept_mem li hli ?_)), (hfold.clean li hli).1, hval⟩
      rw [hval]
      exact hcont
  · intro li hli hsli
    rcases (hres_lis li).mp hli with hin | ⟨_, hplaceholder⟩
    · exact hfold.content li (List.mem_filter.mp hin).1 (hkept_shown li hin)
    · exfalso
      rw [hplaceholder] at hsli
      cases hsli
  · intro it
    constructor
    · intro hr
      unfold renders at hr
      obtain ⟨c, hc⟩ := Option.isSome_iff_exists.mp hr
      unfold renderedContent at hc
      obtain ⟨pos, hpos, _⟩ := Option.map_eq_some'.mp hc
      exact ⟨pos, (indexOfSub_some hpos).2.1⟩
    · rintro ⟨pos, hpos⟩
      unfold renders renderedContent
      cases hio : indexOfSub (lowerL it) (lowerL q) with
      | some p => rfl
      | none => exact absurd hpos (indexOfSub_none hio pos)

/-- The spec's example items `["John", "Johnny", "John Doe"]`. -/
def c4Items : List (List Char) :=
  [['J', 'o', 'h', 'n'], ['J', 'o', 'h', 'n', 'n', 'y'],
   ['J', 'o', 'h', 'n', ' ', 'D', 'o', 'e']]

/-- Witness for C4 at the spec's example: rendering from the empty
container with query `"john"`, the exact item `"John"` is rendered if and
only if it matches (it does). -/
theorem c4_render_decision_and_highlight_witness :
    ['J', 'o', 'h', 'n'] ∈ c4Items ∧
    ((∃ li ∈ (updateResults emptyState c4Items ['j', 'o', 'h', 'n']).lis,
        li.isOption = true ∧ li.value = ['J', 'o', 'h', 'n']) ↔
      renders ['j', 'o', 'h', 'n'] ['J', 'o', 'h', 'n'] = true) :=
  ⟨by decide,
   (c4_render_decision_and_highlight emptyState c4Items ['j', 'o', 'h', 'n']
      (by decide) (by decide) (by decide) (by decide) (by decide)).1 _ (by decide)⟩
